import Mathlib

/-!
Verification of the Rapid Type Analysis (RTA) call-graph engine described by
the repository's specification.  The engine source is not present in the
source tree (only its conformance fixture `go/callgraph/rta/testdata/
multipkgs.txtar` is), so the engine itself is modelled from the spec:
the Program Model, Method-Set Resolver, Instantiated-Type Tracker,
Dynamic-Dispatch Registry and the worklist fixpoint orchestrator.
The canonical fixture is embedded verbatim from the txtar file and the
claimed outputs are checked against the model's run.
-/

set_option maxHeartbeats 2000000

namespace RTA

/-- Reference to a concrete type: a named type `base n`, or the pointer
type `ptr n` pointing to the named type `base n`. -/
inductive TypeRef where
  | base (n : Nat)
  | ptr (n : Nat)
deriving DecidableEq, Repr

/-- Kind tag of a call-graph edge, as in the spec's data model. -/
inductive EdgeKind where
  | staticFunction
  | staticMethod
  | dynamicMethod
  | dynamicFunction
deriving DecidableEq, Repr

/-- Dispatch key of a dynamic call site: an (interface, method-name) pair
for interface calls, or a call signature for indirect function-value calls. -/
inductive DispatchKey where
  | iface (i : Nat) (m : String)
  | signature (s : Nat)
deriving DecidableEq, Repr

/-- A call site: static (directly naming a target function and carrying the
edge kind from the call-site metadata) or dynamic (carrying a dispatch key). -/
inductive CallSite where
  | static (target : Nat) (kind : EdgeKind)
  | dynamic (key : DispatchKey)
deriving DecidableEq, Repr

/-- An instantiation site: a concrete type becoming instantiated, or a
function having its address taken. -/
inductive InstSite where
  | typ (t : TypeRef)
  | func (f : Nat)
deriving DecidableEq, Repr

/-- A candidate recorded by the Instantiated-Type Tracker: an instantiated
concrete type or an address-taken function. -/
inductive Candidate where
  | typ (t : TypeRef)
  | func (f : Nat)
deriving DecidableEq, Repr

/-- Modelled from the spec: a Function of the Program Model, with its call
signature, ordered call sites and ordered instantiation sites. -/
structure Function where
  sig : Nat
  calls : List CallSite
  insts : List InstSite
deriving DecidableEq, Repr

/-- Modelled from the spec: a ConcreteType with its method set
(method name to implementing function). -/
structure ConcreteType where
  ref : TypeRef
  methods : List (String × Nat)
deriving DecidableEq, Repr

/-- Modelled from the spec: an InterfaceType with its required method names. -/
structure InterfaceType where
  id : Nat
  methods : List String
deriving DecidableEq, Repr

/-- Modelled from the spec: the immutable Program Model fact base.
Functions are referenced by index. -/
structure Program where
  funcs : List Function
  types : List ConcreteType
  ifaces : List InterfaceType
deriving Repr

/-- The function at index `f` of the Program Model (empty function when
out of range; a well-formed run never looks one up out of range). -/
def funcAt (p : Program) (f : Nat) : Function :=
  p.funcs.getD f ⟨0, [], []⟩

/-- The method set of the concrete type referred to by `t`. -/
def methodsOf (p : Program) (t : TypeRef) : List (String × Nat) :=
  match p.types.find? (fun ct => ct.ref == t) with
  | some ct => ct.methods
  | none => []

/-- Modelled from the spec: method lookup of the Method-Set Resolver. -/
def lookupMethod (p : Program) (t : TypeRef) (m : String) : Option Nat :=
  match (methodsOf p t).find? (fun en => en.1 == m) with
  | some en => some en.2
  | none => none

/-- Modelled from the spec: does concrete type `t` implement interface `I`,
i.e. does its method set cover every required method of `I`? -/
def implementsIface (p : Program) (t : TypeRef) (I : InterfaceType) : Bool :=
  I.methods.all (fun m => (lookupMethod p t m).isSome)

/-- Interface of the Program Model with identity `i`. -/
def findIface (p : Program) (i : Nat) : Option InterfaceType :=
  p.ifaces.find? (fun I => I.id == i)

/-- Edge kind produced by resolving a dynamic call site with the given key. -/
def keyKind : DispatchKey → EdgeKind
  | .iface _ _ => .dynamicMethod
  | .signature _ => .dynamicFunction

/-- Modelled from the spec: the targets a candidate yields for a dispatch
key.  An instantiated type matches an interface key when it implements the
whole interface, resolving to its method; an address-taken function matches
a signature key when its signature agrees, resolving to itself.  The list
is empty (no resolution) or a singleton. -/
def resolveTargets (p : Program) (key : DispatchKey) (c : Candidate) : List Nat :=
  match key, c with
  | .iface i m, .typ t =>
      match findIface p i with
      | some I => if implementsIface p t I then (lookupMethod p t m).toList else []
      | none => []
  | .signature sg, .func f =>
      if f < p.funcs.length ∧ (funcAt p f).sig = sg then [f] else []
  | _, _ => []

/-- Modelled from the spec: the runtime-type closure of an observed type.
Instantiating a named type also makes its pointer type a runtime type, and
observing a pointer type also records its named element type, matching the
fixture's expected `rtype` output. -/
def typeClosure : TypeRef → List TypeRef
  | .base n => [.base n, .ptr n]
  | .ptr n => [.ptr n, .base n]

/-- Candidates produced by executing an instantiation site. -/
def instClosure : InstSite → List Candidate
  | .typ t => (typeClosure t).map Candidate.typ
  | .func g => [.func g]

/-- All candidates produced by a function's instantiation sites, in their
declared order. -/
def instCands (fn : Function) : List Candidate :=
  fn.insts.flatMap instClosure

/-- The static call sites of a function, as (target, kind) pairs, in their
declared order. -/
def staticTargets (fn : Function) : List (Nat × EdgeKind) :=
  fn.calls.filterMap (fun cs =>
    match cs with
    | .static t k => some (t, k)
    | .dynamic _ => none)

/-- The dispatch keys of a function's dynamic call sites, in declared order. -/
def dynKeys (fn : Function) : List DispatchKey :=
  fn.calls.filterMap (fun cs =>
    match cs with
    | .static _ _ => none
    | .dynamic key => some key)

/-- Modelled from the spec: the Engine's working state — the Reachable set,
the worklist queue, the processed set, the Instantiated-Type Tracker's set,
the deduplicated kind-tagged edge list of the Call Graph, and the
Dynamic-Dispatch Registry of (caller, key) registrations. -/
structure EngineState where
  reachable : List Nat
  queue : List Nat
  processed : List Nat
  instantiated : List Candidate
  edges : List (Nat × Nat × EdgeKind)
  registry : List (Nat × DispatchKey)
deriving DecidableEq, Repr

/-- The empty working state created at the start of a run. -/
def emptyState : EngineState :=
  ⟨[], [], [], [], [], []⟩

/-- Modelled from the spec: `addEdge` of the Call Graph — deduplicates by
the (caller, callee, kind) triple. -/
def addEdge (s : EngineState) (caller callee : Nat) (k : EdgeKind) : EngineState :=
  if (caller, callee, k) ∈ s.edges then s
  else { s with edges := s.edges ++ [(caller, callee, k)] }

/-- Modelled from the spec: mark a function reachable; the first time this
happens the function transitions `Unvisited → Queued`. -/
def markReachable (s : EngineState) (f : Nat) : EngineState :=
  if f ∈ s.reachable then s
  else { s with reachable := s.reachable ++ [f], queue := s.queue ++ [f] }

/-- Emit the resolutions of one (call site, candidate) pair: record the
dynamic edge, then mark the target reachable. -/
def emitResolution (p : Program) (s : EngineState) (caller : Nat)
    (key : DispatchKey) (c : Candidate) : EngineState :=
  (resolveTargets p key c).foldl
    (fun s1 t => markReachable (addEdge s1 caller t (keyKind key)) t) s

/-- Modelled from the spec: `register` of the Dynamic-Dispatch Registry —
adds the call site under its key, idempotent if already present. -/
def register (s : EngineState) (caller : Nat) (key : DispatchKey) : EngineState :=
  if (caller, key) ∈ s.registry then s
  else { s with registry := s.registry ++ [(caller, key)] }

/-- Modelled from the spec: processing a dynamic call site — register it,
then immediately attempt resolution against every candidate already
observed. -/
def processDynamicSite (p : Program) (s : EngineState) (caller : Nat)
    (key : DispatchKey) : EngineState :=
  s.instantiated.foldl (fun s2 c => emitResolution p s2 caller key c)
    (register s caller key)

/-- Modelled from the spec: `observe` of the Instantiated-Type Tracker —
returns whether this is the first observation, re-observations are no-ops. -/
def observe (s : EngineState) (c : Candidate) : Bool × EngineState :=
  if c ∈ s.instantiated then (false, s)
  else (true, { s with instantiated := s.instantiated ++ [c] })

/-- Modelled from the spec: `resolveNewCandidate` of the Dynamic-Dispatch
Registry — match a newly observed candidate against all previously
registered call sites. -/
def resolveNewCandidate (p : Program) (s : EngineState) (c : Candidate) : EngineState :=
  s.registry.foldl (fun s1 en => emitResolution p s1 en.1 en.2 c) s

/-- Observe one candidate; on a first observation drive registry
resolution exactly once. -/
def observeCandidate (p : Program) (s : EngineState) (c : Candidate) : EngineState :=
  let res := observe s c
  if res.1 then resolveNewCandidate p res.2 c else res.2

/-- Process one call site of the function `caller`. -/
def processCallSite (p : Program) (s : EngineState) (caller : Nat) :
    CallSite → EngineState
  | .static t k => markReachable (addEdge s caller t k) t
  | .dynamic key => processDynamicSite p s caller key

/-- Modelled from the spec: scan a dequeued function — its call sites and
then the candidates of its instantiation sites, in declared order. -/
def scanFunction (p : Program) (s : EngineState) (f : Nat) : EngineState :=
  (instCands (funcAt p f)).foldl (fun s2 c => observeCandidate p s2 c)
    ((funcAt p f).calls.foldl (fun s2 cs => processCallSite p s2 f cs) s)

/-- One worklist iteration: dequeue the next function, move it to the
processed set (`Queued → Processed`) and scan it. -/
def step (p : Program) (s : EngineState) : EngineState :=
  match s.queue with
  | [] => s
  | f :: rest => scanFunction p { s with queue := rest, processed := s.processed ++ [f] } f

/-- Run the worklist for at most `fuel` iterations, stopping at the
empty-queue fixpoint. -/
def run (p : Program) : Nat → EngineState → EngineState
  | 0, s => s
  | n + 1, s => if s.queue = [] then s else run p n (step p s)

/-- Seed the caller-supplied root set. -/
def initState (roots : List Nat) : EngineState :=
  roots.foldl markReachable emptyState

/-- Modelled from the spec: the whole RTA run — seed the roots and process
the worklist to the fixpoint.  A fuel of one iteration per function of the
Program Model suffices because each function is dequeued at most once. -/
def analyze (p : Program) (roots : List Nat) : EngineState :=
  run p p.funcs.length (initState roots)

/-- Number of call sites plus instantiation sites of a function. -/
def siteCount (fn : Function) : Nat :=
  fn.calls.length + fn.insts.length

/-- Total number of call sites plus instantiation sites in the program. -/
def totalSites (p : Program) : Nat :=
  ((List.range p.funcs.length).map (fun i => siteCount (funcAt p i))).sum

/-- Validity of a tracker candidate: an instantiated type is one of the
Program Model's concrete types, an address-taken function is one of its
functions. -/
def CandValid (p : Program) : Candidate → Prop
  | .typ t => t ∈ p.types.map ConcreteType.ref
  | .func g => g < p.funcs.length

instance (p : Program) : (c : Candidate) → Decidable (CandValid p c)
  | .typ t => inferInstanceAs (Decidable (t ∈ p.types.map ConcreteType.ref))
  | .func g => inferInstanceAs (Decidable (g < p.funcs.length))

/-- Well-formedness of the Program Model itself: static call targets and
method-set entries name existing functions, static call sites carry a
static kind, and instantiation sites name entities of the model. -/
def WFProg (p : Program) : Prop :=
  (∀ fn ∈ p.funcs,
    (∀ en ∈ staticTargets fn,
      en.1 < p.funcs.length ∧ (en.2 = EdgeKind.staticFunction ∨ en.2 = EdgeKind.staticMethod)) ∧
    (∀ c ∈ instCands fn, CandValid p c)) ∧
  (∀ ct ∈ p.types, ∀ en ∈ ct.methods, en.2 < p.funcs.length)

/-- Well-formedness of an analysis input: a well-formed Program Model and
roots naming existing functions. -/
def WellFormed (p : Program) (roots : List Nat) : Prop :=
  WFProg p ∧ ∀ r ∈ roots, r < p.funcs.length

instance (p : Program) : Decidable (WFProg p) := by
  unfold WFProg; infer_instance

instance (p : Program) (roots : List Nat) : Decidable (WellFormed p roots) := by
  unfold WellFormed; infer_instance

/-- One registered call site is fully resolved against every observed
candidate: the resolution edges are recorded and the targets reachable. -/
def CrossEntry (p : Program) (s : EngineState) (en : Nat × DispatchKey) : Prop :=
  ∀ c ∈ s.instantiated, ∀ t ∈ resolveTargets p en.2 c,
    (en.1, t, keyKind en.2) ∈ s.edges ∧ t ∈ s.reachable

/-- The registry/tracker cross-product closure: every registered call site
is fully resolved against every observed candidate. -/
def Cross (p : Program) (s : EngineState) : Prop :=
  ∀ en ∈ s.registry, CrossEntry p s en

/-- A processed function has been fully scanned: its static targets have
their edges and are reachable, its dynamic sites are registered, and its
instantiation candidates are observed. -/
def Scanned (p : Program) (s : EngineState) (f : Nat) : Prop :=
  (∀ en ∈ staticTargets (funcAt p f), (f, en.1, en.2) ∈ s.edges ∧ en.1 ∈ s.reachable) ∧
  (∀ key ∈ dynKeys (funcAt p f), (f, key) ∈ s.registry) ∧
  (∀ c ∈ instCands (funcAt p f), c ∈ s.instantiated)

/-- What processing one call site of caller `f` guarantees afterwards. -/
def SiteDone (f : Nat) (cs : CallSite) (s : EngineState) : Prop :=
  match cs with
  | .static t k => (f, t, k) ∈ s.edges ∧ t ∈ s.reachable
  | .dynamic key => (f, key) ∈ s.registry

/-- The worklist/queue part of the engine invariant: queued functions are
reachable and unprocessed, nothing is queued or dequeued twice, processed
functions are reachable, every reachable function is processed or queued,
and the monotone sets stay inside the Program Model. -/
def NoCross (p : Program) (s : EngineState) : Prop :=
  (∀ f ∈ s.queue, f ∈ s.reachable) ∧
  (∀ f ∈ s.queue, f ∉ s.processed) ∧
  s.queue.Nodup ∧
  s.processed.Nodup ∧
  (∀ f ∈ s.processed, f ∈ s.reachable) ∧
  (∀ f ∈ s.reachable, f ∈ s.processed ∨ f ∈ s.queue) ∧
  (∀ f ∈ s.reachable, f < p.funcs.length) ∧
  (∀ c ∈ s.instantiated, CandValid p c) ∧
  s.edges.Nodup

/-- Core invariant of the worklist engine (everything except the
scanned-function facts). -/
def InvCore (p : Program) (s : EngineState) : Prop :=
  NoCross p s ∧ Cross p s

/-- Full invariant of the worklist engine. -/
def Inv (p : Program) (s : EngineState) : Prop :=
  InvCore p s ∧ ∀ f ∈ s.processed, Scanned p s f

instance (p : Program) (s : EngineState) (en : Nat × DispatchKey) :
    Decidable (CrossEntry p s en) := by
  unfold CrossEntry; infer_instance

instance (p : Program) (s : EngineState) : Decidable (Cross p s) := by
  unfold Cross; infer_instance

instance (p : Program) (s : EngineState) : Decidable (NoCross p s) := by
  unfold NoCross; infer_instance

instance (p : Program) (s : EngineState) (f : Nat) : Decidable (Scanned p s f) := by
  unfold Scanned; infer_instance

instance (p : Program) (s : EngineState) : Decidable (InvCore p s) := by
  unfold InvCore; infer_instance

instance (p : Program) (s : EngineState) : Decidable (Inv p s) := by
  unfold Inv; infer_instance

/-- Growth of the monotone working sets between two states. -/
structure Grows (s t : EngineState) : Prop where
  reach : ∀ x ∈ s.reachable, x ∈ t.reachable
  inst : ∀ x ∈ s.instantiated, x ∈ t.instantiated
  edge : ∀ x ∈ s.edges, x ∈ t.edges
  reg : ∀ x ∈ s.registry, x ∈ t.registry

/-- Growth within the scan of a single function: the monotone sets grow,
the queue only gains entries, and the processed set is untouched. -/
def Mono (s t : EngineState) : Prop :=
  Grows s t ∧ (∀ x ∈ s.queue, x ∈ t.queue) ∧ t.processed = s.processed

/-- The per-function state machine of the orchestrator. -/
inductive FState where
  | unvisited
  | queued
  | processed
deriving DecidableEq, Repr

/-- Progress rank of a per-function state. -/
def FState.rank : FState → Nat
  | .unvisited => 0
  | .queued => 1
  | .processed => 2

/-- The state of function `f` in working state `s`. -/
def fstate (s : EngineState) (f : Nat) : FState :=
  if f ∈ s.processed then .processed
  else if f ∈ s.queue then .queued
  else .unvisited

/-- Per-derivation justification of reachability: roots are reachable,
static call sites of reachable functions make their targets reachable, and
a dynamic call site of a reachable function resolved against a candidate
instantiated in a reachable function makes the resolved method reachable.
This least-fixpoint characterisation is manifestly independent of the
order call sites and instantiation sites are scanned. -/
inductive Reach (p : Program) (roots : List Nat) : Nat → Prop where
  | root (f : Nat) : f ∈ roots → Reach p roots f
  | staticStep (g t : Nat) (k : EdgeKind) :
      Reach p roots g → (t, k) ∈ staticTargets (funcAt p g) → Reach p roots t
  | dynStep (g : Nat) (key : DispatchKey) (h : Nat) (c : Candidate) (t : Nat) :
      Reach p roots g → key ∈ dynKeys (funcAt p g) →
      Reach p roots h → c ∈ instCands (funcAt p h) →
      t ∈ resolveTargets p key c → Reach p roots t

/-- Justified instantiation: the candidate is produced by an instantiation
site of a justified-reachable function. -/
def InstJ (p : Program) (roots : List Nat) (c : Candidate) : Prop :=
  ∃ h, Reach p roots h ∧ c ∈ instCands (funcAt p h)

/-- Every element of the working sets is justified by a derivation. -/
def JustState (p : Program) (roots : List Nat) (s : EngineState) : Prop :=
  (∀ f ∈ s.reachable, Reach p roots f) ∧
  (∀ c ∈ s.instantiated, InstJ p roots c) ∧
  (∀ en ∈ s.registry, Reach p roots en.1 ∧ en.2 ∈ dynKeys (funcAt p en.1))

/-- Two Program Models that differ only in the order of each function's
call sites and instantiation sites. -/
def SitePerm (p q : Program) : Prop :=
  p.types = q.types ∧ p.ifaces = q.ifaces ∧ p.funcs.length = q.funcs.length ∧
  ∀ i < p.funcs.length,
    (funcAt p i).sig = (funcAt q i).sig ∧
    (funcAt p i).calls.Perm (funcAt q i).calls ∧
    (funcAt p i).insts.Perm (funcAt q i).insts

instance (p q : Program) : Decidable (SitePerm p q) := by
  unfold SitePerm; infer_instance

/-- The runtime-type set is closed under pointer formation: whenever a
named type is recorded, its pointer type is recorded as well. -/
def PtrClosed (l : List Candidate) : Prop :=
  ∀ c ∈ l, ∀ d ∈ (match c with
    | Candidate.typ (TypeRef.base n) => [Candidate.typ (TypeRef.ptr n)]
    | _ => ([] : List Candidate)), d ∈ l

instance (l : List Candidate) : Decidable (PtrClosed l) := by
  unfold PtrClosed; infer_instance

/-!
The canonical fixture, embedded from
`src/go/callgraph/rta/testdata/multipkgs.txtar`.

Function indices:
0 `main`, 1 `use`, 2 `dead`, 3 `init`, 4 `example.com/subpkg.init`,
5 `example.com/subpkg.NewInterfaceF`,
6 `(example.com/subpkg.A).F`, 7 `(*example.com/subpkg.A).F` (wrapper),
8 `(*example.com/subpkg.B).F`,
9 `(example.com/subpkg.B2).F`, 10 `(*example.com/subpkg.B2).F` (wrapper),
11 `(example.com/subpkg.C).F`, 12 `(*example.com/subpkg.C).F` (wrapper),
13 `(*example.com/subpkg.D).F`.

Named type indices: 0 `A`, 1 `B`, 2 `B2`, 3 `C`, 4 `D`; so
`TypeRef.base 1` is `example.com/subpkg.B` and `TypeRef.ptr 1` is
`*example.com/subpkg.B`.  `B` declares `F` on the pointer receiver only,
so the value types `B` and `D` have empty method sets and the functions
`(B).F` and `(D).F` do not exist; interface index 0 is the method set
`{ F() }` shared by `subpkg.InterfaceF` and `main`'s anonymous interface.
`main` instantiates `A`, `*B` (via `new`) and `B2`, statically calls
`use` three times and `NewInterfaceF` once, and performs one dynamic
interface call `i.F()`; `dead` instantiates `D`; `NewInterfaceF`
instantiates `C`; each value-receiver method's pointer wrapper statically
calls the value method.
-/
def fixtureProgram : Program :=
  { funcs := [
      ⟨0, [CallSite.static 1 EdgeKind.staticFunction,
           CallSite.static 1 EdgeKind.staticFunction,
           CallSite.static 1 EdgeKind.staticFunction,
           CallSite.static 5 EdgeKind.staticFunction,
           CallSite.dynamic (DispatchKey.iface 0 "F")],
          [InstSite.typ (TypeRef.base 0),
           InstSite.typ (TypeRef.ptr 1),
           InstSite.typ (TypeRef.base 2)]⟩,
      ⟨0, [], []⟩,
      ⟨0, [CallSite.static 1 EdgeKind.staticFunction], [InstSite.typ (TypeRef.base 4)]⟩,
      ⟨0, [CallSite.static 4 EdgeKind.staticFunction], []⟩,
      ⟨0, [], []⟩,
      ⟨0, [], [InstSite.typ (TypeRef.base 3)]⟩,
      ⟨0, [], []⟩,
      ⟨0, [CallSite.static 6 EdgeKind.staticMethod], []⟩,
      ⟨0, [], []⟩,
      ⟨0, [], []⟩,
      ⟨0, [CallSite.static 9 EdgeKind.staticMethod], []⟩,
      ⟨0, [], []⟩,
      ⟨0, [CallSite.static 11 EdgeKind.staticMethod], []⟩,
      ⟨0, [], []⟩],
    types := [
      ⟨TypeRef.base 0, [("F", 6)]⟩, ⟨TypeRef.ptr 0, [("F", 7)]⟩,
      ⟨TypeRef.base 1, []⟩, ⟨TypeRef.ptr 1, [("F", 8)]⟩,
      ⟨TypeRef.base 2, [("F", 9)]⟩, ⟨TypeRef.ptr 2, [("F", 10)]⟩,
      ⟨TypeRef.base 3, [("F", 11)]⟩, ⟨TypeRef.ptr 3, [("F", 12)]⟩,
      ⟨TypeRef.base 4, []⟩, ⟨TypeRef.ptr 4, [("F", 13)]⟩],
    ifaces := [⟨0, ["F"]⟩] }

/-- The fixture's root set: `main` and `init` of the main package. -/
def fixtureRoots : List Nat := [0, 3]

/-- The canonical fixture with `main`'s call sites and instantiation sites
visited in reverse order — a site permutation of `fixtureProgram`. -/
def fixtureProgramPermuted : Program :=
  { funcs := ⟨0, [CallSite.dynamic (DispatchKey.iface 0 "F"),
                  CallSite.static 5 EdgeKind.staticFunction,
                  CallSite.static 1 EdgeKind.staticFunction,
                  CallSite.static 1 EdgeKind.staticFunction,
                  CallSite.static 1 EdgeKind.staticFunction],
                 [InstSite.typ (TypeRef.base 2),
                  InstSite.typ (TypeRef.ptr 1),
                  InstSite.typ (TypeRef.base 0)]⟩ :: fixtureProgram.funcs.drop 1,
    types := fixtureProgram.types,
    ifaces := fixtureProgram.ifaces }

/-- The result of running the engine on the canonical fixture. -/
def fixtureResult : EngineState :=
  analyze fixtureProgram fixtureRoots

/-! ### Generic fold lemmas -/

theorem foldl_fixed {α β : Type _} (g : EngineState → α → EngineState) (proj : EngineState → β)
    (h : ∀ s a, proj (g s a) = proj s) (l : List α) (s : EngineState) :
    proj (l.foldl g s) = proj s := by
  induction l generalizing s with
  | nil => rfl
  | cons a tl ih => rw [List.foldl_cons, ih, h]

theorem foldl_pres {α : Type _} (g : EngineState → α → EngineState) (P : EngineState → Prop)
    (l : List α) (h : ∀ s a, a ∈ l → P s → P (g s a)) (s : EngineState) (hs : P s) :
    P (l.foldl g s) := by
  induction l generalizing s with
  | nil => exact hs
  | cons a tl ih =>
      exact ih (fun s2 b hb h2 => h s2 b (List.mem_cons_of_mem _ hb) h2) _
        (h s a (List.mem_cons_self _ _) hs)

theorem foldl_estab {α : Type _} (g : EngineState → α → EngineState) (P : EngineState → Prop)
    (Q : α → EngineState → Prop) (l : List α)
    (hpres : ∀ s a, a ∈ l → P s → P (g s a))
    (hmono : ∀ s a b, a ∈ l → b ∈ l → Q b s → Q b (g s a))
    (hest : ∀ s a, a ∈ l → P s → Q a (g s a))
    (s : EngineState) (hs : P s) : ∀ a ∈ l, Q a (l.foldl g s) := by
  induction l generalizing s with
  | nil => intro a ha; cases ha
  | cons a tl ih =>
      intro b hb
      rcases List.mem_cons.mp hb with hb | hb
      · subst hb
        rw [List.foldl_cons]
        exact foldl_pres g (Q b) tl
          (fun s2 x hx h2 =>
            hmono s2 x b (List.mem_cons_of_mem _ hx) (List.mem_cons_self _ _) h2)
          _ (hest s b (List.mem_cons_self _ _) hs)
      · exact ih (fun s2 x hx h2 => hpres s2 x (List.mem_cons_of_mem _ hx) h2)
          (fun s2 x y hx hy h2 =>
            hmono s2 x y (List.mem_cons_of_mem _ hx) (List.mem_cons_of_mem _ hy) h2)
          (fun s2 x hx h2 => hest s2 x (List.mem_cons_of_mem _ hx) h2)
          _ (hpres s a (List.mem_cons_self _ _) hs) b hb

theorem foldl_id_of {α : Type _} (g : EngineState → α → EngineState) (l : List α)
    (s : EngineState) (h : ∀ a ∈ l, g s a = s) : l.foldl g s = s := by
  induction l with
  | nil => rfl
  | cons a tl ih =>
      rw [List.foldl_cons, h a (List.mem_cons_self _ _)]
      exact ih (fun b hb => h b (List.mem_cons_of_mem _ hb))

/-! ### Field behaviour of the primitive state operations -/

@[simp] theorem addEdge_reachable (s : EngineState) (a b : Nat) (k : EdgeKind) :
    (addEdge s a b k).reachable = s.reachable := by
  unfold addEdge; split <;> rfl

@[simp] theorem addEdge_queue (s : EngineState) (a b : Nat) (k : EdgeKind) :
    (addEdge s a b k).queue = s.queue := by
  unfold addEdge; split <;> rfl

@[simp] theorem addEdge_processed (s : EngineState) (a b : Nat) (k : EdgeKind) :
    (addEdge s a b k).processed = s.processed := by
  unfold addEdge; split <;> rfl

@[simp] theorem addEdge_instantiated (s : EngineState) (a b : Nat) (k : EdgeKind) :
    (addEdge s a b k).instantiated = s.instantiated := by
  unfold addEdge; split <;> rfl

@[simp] theorem addEdge_registry (s : EngineState) (a b : Nat) (k : EdgeKind) :
    (addEdge s a b k).registry = s.registry := by
  unfold addEdge; split <;> rfl

theorem mem_addEdge (s : EngineState) (a b : Nat) (k : EdgeKind) (x : Nat × Nat × EdgeKind)
    (hx : x ∈ s.edges) : x ∈ (addEdge s a b k).edges := by
  unfold addEdge; split
  · exact hx
  · exact List.mem_append_left _ hx

theorem addEdge_self (s : EngineState) (a b : Nat) (k : EdgeKind) :
    (a, b, k) ∈ (addEdge s a b k).edges := by
  unfold addEdge; split
  · assumption
  · exact List.mem_append_right _ (List.mem_singleton.mpr rfl)

theorem addEdge_nodup (s : EngineState) (a b : Nat) (k : EdgeKind)
    (h : s.edges.Nodup) : (addEdge s a b k).edges.Nodup := by
  unfold addEdge; split
  · exact h
  · rename_i hnot
    rw [List.nodup_append]
    exact ⟨h, List.nodup_singleton _, by
      intro x hx hx2
      rw [List.mem_singleton] at hx2
      subst hx2
      exact hnot hx⟩

@[simp] theorem markReachable_processed (s : EngineState) (f : Nat) :
    (markReachable s f).processed = s.processed := by
  unfold markReachable; split <;> rfl

@[simp] theorem markReachable_instantiated (s : EngineState) (f : Nat) :
    (markReachable s f).instantiated = s.instantiated := by
  unfold markReachable; split <;> rfl

@[simp] theorem markReachable_edges (s : EngineState) (f : Nat) :
    (markReachable s f).edges = s.edges := by
  unfold markReachable; split <;> rfl

@[simp] theorem markReachable_registry (s : EngineState) (f : Nat) :
    (markReachable s f).registry = s.registry := by
  unfold markReachable; split <;> rfl

theorem mem_markReachable (s : EngineState) (f x : Nat) (hx : x ∈ s.reachable) :
    x ∈ (markReachable s f).reachable := by
  unfold markReachable; split
  · exact hx
  · exact List.mem_append_left _ hx

theorem markReachable_self (s : EngineState) (f : Nat) :
    f ∈ (markReachable s f).reachable := by
  unfold markReachable; split
  · assumption
  · exact List.mem_append_right _ (List.mem_singleton.mpr rfl)

theorem mem_markReachable_queue (s : EngineState) (f x : Nat) (hx : x ∈ s.queue) :
    x ∈ (markReachable s f).queue := by
  unfold markReachable; split
  · exact hx
  · exact List.mem_append_left _ hx

theorem markReachable_of_mem (s : EngineState) (f : Nat) (h : f ∈ s.reachable) :
    markReachable s f = s := by
  unfold markReachable
  rw [if_pos h]

theorem markReachable_of_not_mem (s : EngineState) (f : Nat) (h : f ∉ s.reachable) :
    markReachable s f =
      { s with reachable := s.reachable ++ [f], queue := s.queue ++ [f] } := by
  unfold markReachable
  rw [if_neg h]

@[simp] theorem register_reachable (s : EngineState) (a : Nat) (key : DispatchKey) :
    (register s a key).reachable = s.reachable := by
  unfold register; split <;> rfl

@[simp] theorem register_queue (s : EngineState) (a : Nat) (key : DispatchKey) :
    (register s a key).queue = s.queue := by
  unfold register; split <;> rfl

@[simp] theorem register_processed (s : EngineState) (a : Nat) (key : DispatchKey) :
    (register s a key).processed = s.processed := by
  unfold register; split <;> rfl

@[simp] theorem register_instantiated (s : EngineState) (a : Nat) (key : DispatchKey) :
    (register s a key).instantiated = s.instantiated := by
  unfold register; split <;> rfl

@[simp] theorem register_edges (s : EngineState) (a : Nat) (key : DispatchKey) :
    (register s a key).edges = s.edges := by
  unfold register; split <;> rfl

theorem mem_register (s : EngineState) (a : Nat) (key : DispatchKey)
    (x : Nat × DispatchKey) (hx : x ∈ s.registry) : x ∈ (register s a key).registry := by
  unfold register; split
  · exact hx
  · exact List.mem_append_left _ hx

theorem register_self (s : EngineState) (a : Nat) (key : DispatchKey) :
    (a, key) ∈ (register s a key).registry := by
  unfold register; split
  · assumption
  · exact List.mem_append_right _ (List.mem_singleton.mpr rfl)

theorem register_of_mem (s : EngineState) (a : Nat) (key : DispatchKey)
    (h : (a, key) ∈ s.registry) : register s a key = s := by
  unfold register
  rw [if_pos h]

theorem mem_register_elim (s : EngineState) (a : Nat) (key : DispatchKey)
    (x : Nat × DispatchKey) (hx : x ∈ (register s a key).registry) :
    x ∈ s.registry ∨ x = (a, key) := by
  unfold register at hx
  split at hx
  · exact Or.inl hx
  · rcases List.mem_append.mp hx with h | h
    · exact Or.inl h
    · exact Or.inr (List.mem_singleton.mp h)

/-! ### Monotone growth of the composite operations -/

theorem grows_id (s : EngineState) : Grows s s :=
  ⟨fun _ h => h, fun _ h => h, fun _ h => h, fun _ h => h⟩

theorem grows_seq {s t u : EngineState} (h1 : Grows s t) (h2 : Grows t u) : Grows s u :=
  ⟨fun x hx => h2.reach x (h1.reach x hx), fun x hx => h2.inst x (h1.inst x hx),
   fun x hx => h2.edge x (h1.edge x hx), fun x hx => h2.reg x (h1.reg x hx)⟩

theorem mono_id (s : EngineState) : Mono s s :=
  ⟨grows_id s, fun _ h => h, Eq.refl _⟩

theorem mono_seq {s t u : EngineState} (h1 : Mono s t) (h2 : Mono t u) : Mono s u :=
  ⟨grows_seq h1.1 h2.1, fun x hx => h2.2.1 x (h1.2.1 x hx), h2.2.2.trans h1.2.2⟩

theorem mono_addEdge (s : EngineState) (a b : Nat) (k : EdgeKind) :
    Mono s (addEdge s a b k) :=
  ⟨⟨fun x hx => by simpa using hx, fun x hx => by simpa using hx,
    fun x hx => mem_addEdge s a b k x hx, fun x hx => by simpa using hx⟩,
   fun x hx => by simpa using hx, by simp⟩

theorem mono_markReachable (s : EngineState) (f : Nat) :
    Mono s (markReachable s f) :=
  ⟨⟨fun x hx => mem_markReachable s f x hx, fun x hx => by simpa using hx,
    fun x hx => by simpa using hx, fun x hx => by simpa using hx⟩,
   fun x hx => mem_markReachable_queue s f x hx, by simp⟩

theorem mono_register (s : EngineState) (a : Nat) (key : DispatchKey) :
    Mono s (register s a key) :=
  ⟨⟨fun x hx => by simpa using hx, fun x hx => by simpa using hx,
    fun x hx => by simpa using hx, fun x hx => mem_register s a key x hx⟩,
   fun x hx => by simpa using hx, by simp⟩

theorem mono_emitResolution (p : Program) (s : EngineState) (a : Nat)
    (key : DispatchKey) (c : Candidate) : Mono s (emitResolution p s a key c) := by
  unfold emitResolution
  exact foldl_pres _ (Mono s) _
    (fun s2 t _ h2 =>
      mono_seq h2 (mono_seq (mono_addEdge s2 a t (keyKind key))
        (mono_markReachable (addEdge s2 a t (keyKind key)) t)))
    s (mono_id s)

@[simp] theorem emitResolution_instantiated (p : Program) (s : EngineState) (a : Nat)
    (key : DispatchKey) (c : Candidate) :
    (emitResolution p s a key c).instantiated = s.instantiated := by
  unfold emitResolution
  exact foldl_fixed _ EngineState.instantiated (fun s2 t => by simp) _ s

@[simp] theorem emitResolution_registry (p : Program) (s : EngineState) (a : Nat)
    (key : DispatchKey) (c : Candidate) :
    (emitResolution p s a key c).registry = s.registry := by
  unfold emitResolution
  exact foldl_fixed _ EngineState.registry (fun s2 t => by simp) _ s

@[simp] theorem emitResolution_processed (p : Program) (s : EngineState) (a : Nat)
    (key : DispatchKey) (c : Candidate) :
    (emitResolution p s a key c).processed = s.processed := by
  unfold emitResolution
  exact foldl_fixed _ EngineState.processed (fun s2 t => by simp) _ s

theorem mono_processDynamicSite (p : Program) (s : EngineState) (a : Nat)
    (key : DispatchKey) : Mono s (processDynamicSite p s a key) := by
  unfold processDynamicSite
  exact mono_seq (mono_register s a key)
    (foldl_pres _ (Mono (register s a key)) _
      (fun s2 c _ h2 => mono_seq h2 (mono_emitResolution p s2 a key c))
      _ (mono_id _))

@[simp] theorem processDynamicSite_instantiated (p : Program) (s : EngineState) (a : Nat)
    (key : DispatchKey) :
    (processDynamicSite p s a key).instantiated = s.instantiated := by
  unfold processDynamicSite
  rw [foldl_fixed _ EngineState.instantiated (fun s2 c => by simp) _ _]
  simp

@[simp] theorem processDynamicSite_processed (p : Program) (s : EngineState) (a : Nat)
    (key : DispatchKey) :
    (processDynamicSite p s a key).processed = s.processed := by
  unfold processDynamicSite
  rw [foldl_fixed _ EngineState.processed (fun s2 c => by simp) _ _]
  simp

@[simp] theorem processDynamicSite_registry (p : Program) (s : EngineState) (a : Nat)
    (key : DispatchKey) :
    (processDynamicSite p s a key).registry = (register s a key).registry := by
  unfold processDynamicSite
  exact foldl_fixed _ EngineState.registry (fun s2 c => by simp) _ _

theorem mono_resolveNewCandidate (p : Program) (s : EngineState) (c : Candidate) :
    Mono s (resolveNewCandidate p s c) := by
  unfold resolveNewCandidate
  exact foldl_pres _ (Mono s) _
    (fun s2 en _ h2 => mono_seq h2 (mono_emitResolution p s2 en.1 en.2 c))
    s (mono_id s)

@[simp] theorem resolveNewCandidate_instantiated (p : Program) (s : EngineState)
    (c : Candidate) : (resolveNewCandidate p s c).instantiated = s.instantiated := by
  unfold resolveNewCandidate
  exact foldl_fixed _ EngineState.instantiated (fun s2 en => by simp) _ s

@[simp] theorem resolveNewCandidate_registry (p : Program) (s : EngineState)
    (c : Candidate) : (resolveNewCandidate p s c).registry = s.registry := by
  unfold resolveNewCandidate
  exact foldl_fixed _ EngineState.registry (fun s2 en => by simp) _ s

@[simp] theorem resolveNewCandidate_processed (p : Program) (s : EngineState)
    (c : Candidate) : (resolveNewCandidate p s c).processed = s.processed := by
  unfold resolveNewCandidate
  exact foldl_fixed _ EngineState.processed (fun s2 en => by simp) _ s

theorem observeCandidate_of_mem (p : Program) (s : EngineState) (c : Candidate)
    (h : c ∈ s.instantiated) : observeCandidate p s c = s := by
  unfold observeCandidate observe
  rw [if_pos h]
  rfl

theorem observeCandidate_of_not_mem (p : Program) (s : EngineState) (c : Candidate)
    (h : c ∉ s.instantiated) :
    observeCandidate p s c =
      resolveNewCandidate p { s with instantiated := s.instantiated ++ [c] } c := by
  unfold observeCandidate observe
  rw [if_neg h]
  rfl

theorem mono_observeCandidate (p : Program) (s : EngineState) (c : Candidate) :
    Mono s (observeCandidate p s c) := by
  by_cases h : c ∈ s.instantiated
  · rw [observeCandidate_of_mem p s c h]
    exact mono_id s
  · rw [observeCandidate_of_not_mem p s c h]
    refine (mono_seq ?_ (mono_resolveNewCandidate p _ c))
    exact ⟨⟨fun x hx => hx, fun x hx => List.mem_append_left _ hx,
      fun x hx => hx, fun x hx => hx⟩, fun x hx => hx, rfl⟩

theorem mem_observeCandidate (p : Program) (s : EngineState) (c : Candidate) :
    c ∈ (observeCandidate p s c).instantiated := by
  by_cases h : c ∈ s.instantiated
  · rw [observeCandidate_of_mem p s c h]; exact h
  · rw [observeCandidate_of_not_mem p s c h]
    rw [resolveNewCandidate_instantiated]
    exact List.mem_append_right _ (List.mem_singleton.mpr rfl)

@[simp] theorem observeCandidate_registry (p : Program) (s : EngineState) (c : Candidate) :
    (observeCandidate p s c).registry = s.registry := by
  by_cases h : c ∈ s.instantiated
  · rw [observeCandidate_of_mem p s c h]
  · rw [observeCandidate_of_not_mem p s c h, resolveNewCandidate_registry]

@[simp] theorem observeCandidate_processed (p : Program) (s : EngineState) (c : Candidate) :
    (observeCandidate p s c).processed = s.processed := by
  by_cases h : c ∈ s.instantiated
  · rw [observeCandidate_of_mem p s c h]
  · rw [observeCandidate_of_not_mem p s c h, resolveNewCandidate_processed]

theorem observeCandidate_instantiated_sub (p : Program) (s : EngineState) (c : Candidate)
    (x : Candidate) (hx : x ∈ (observeCandidate p s c).instantiated) :
    x ∈ s.instantiated ∨ x = c := by
  by_cases h : c ∈ s.instantiated
  · rw [observeCandidate_of_mem p s c h] at hx
    exact Or.inl hx
  · rw [observeCandidate_of_not_mem p s c h, resolveNewCandidate_instantiated] at hx
    rcases List.mem_append.mp hx with h2 | h2
    · exact Or.inl h2
    · exact Or.inr (List.mem_singleton.mp h2)

theorem mono_processCallSite (p : Program) (s : EngineState) (a : Nat) (cs : CallSite) :
    Mono s (processCallSite p s a cs) := by
  cases cs with
  | static t k =>
      exact mono_seq (mono_addEdge s a t k) (mono_markReachable (addEdge s a t k) t)
  | dynamic key => exact mono_processDynamicSite p s a key

theorem processCallSite_instantiated (p : Program) (s : EngineState) (a : Nat)
    (cs : CallSite) : (processCallSite p s a cs).instantiated = s.instantiated := by
  cases cs with
  | static t k => simp [processCallSite]
  | dynamic key => simp [processCallSite]

theorem mono_scanFunction (p : Program) (s : EngineState) (f : Nat) :
    Mono s (scanFunction p s f) := by
  unfold scanFunction
  have h1 : Mono s ((funcAt p f).calls.foldl (fun s2 cs => processCallSite p s2 f cs) s) :=
    foldl_pres _ (Mono s) _
      (fun s2 cs _ h2 => mono_seq h2 (mono_processCallSite p s2 f cs)) s (mono_id s)
  exact mono_seq h1 (foldl_pres _ (Mono _) _
    (fun s2 c _ h2 => mono_seq h2 (mono_observeCandidate p s2 c)) _ (mono_id _))

/-! ### Persistence of established facts under growth -/

theorem crossEntry_of_grows {p : Program} {s t : EngineState} {en : Nat × DispatchKey}
    (hg : Grows s t) (hinst : t.instantiated = s.instantiated)
    (h : CrossEntry p s en) : CrossEntry p t en := by
  intro c hc tg htg
  rw [hinst] at hc
  obtain ⟨he, hr⟩ := h c hc tg htg
  exact ⟨hg.edge _ he, hg.reach _ hr⟩

theorem cross_of_grows {p : Program} {s t : EngineState}
    (hg : Grows s t) (hinst : t.instantiated = s.instantiated)
    (hreg : t.registry = s.registry) (h : Cross p s) : Cross p t := by
  intro en hen
  rw [hreg] at hen
  exact crossEntry_of_grows hg hinst (h en hen)

theorem scanned_of_grows {p : Program} {s t : EngineState} {f : Nat}
    (hg : Grows s t) (h : Scanned p s f) : Scanned p t f := by
  obtain ⟨h1, h2, h3⟩ := h
  exact ⟨fun en hen => ⟨hg.edge _ (h1 en hen).1, hg.reach _ (h1 en hen).2⟩,
    fun key hkey => hg.reg _ (h2 key hkey),
    fun c hc => hg.inst _ (h3 c hc)⟩

theorem siteDone_of_grows {s t : EngineState} {f : Nat} {cs : CallSite}
    (hg : Grows s t) (h : SiteDone f cs s) : SiteDone f cs t := by
  cases cs with
  | static tg k => exact ⟨hg.edge _ h.1, hg.reach _ h.2⟩
  | dynamic key => exact hg.reg _ h

/-! ### Validity of resolution targets -/

theorem funcAt_mem {p : Program} {f : Nat} (hf : f < p.funcs.length) :
    funcAt p f ∈ p.funcs := by
  unfold funcAt
  rw [List.getD_eq_getElem _ _ hf]
  exact List.getElem_mem hf

theorem mem_methodsOf {p : Program} {t : TypeRef} {en : String × Nat}
    (h : en ∈ methodsOf p t) : ∃ ct ∈ p.types, en ∈ ct.methods := by
  unfold methodsOf at h
  rcases hfind : p.types.find? (fun ct => ct.ref == t) with _ | ct
  · rw [hfind] at h; cases h
  · rw [hfind] at h
    exact ⟨ct, List.mem_of_find?_eq_some hfind, h⟩

theorem lookupMethod_lt {p : Program} {t : TypeRef} {m : String} {g : Nat}
    (hwf : WFProg p) (h : lookupMethod p t m = some g) : g < p.funcs.length := by
  unfold lookupMethod at h
  rcases hfind : (methodsOf p t).find? (fun en => en.1 == m) with _ | en
  · rw [hfind] at h; cases h
  · rw [hfind] at h
    obtain ⟨ct, hct, hen⟩ := mem_methodsOf (List.mem_of_find?_eq_some hfind)
    injection h with h2
    rw [← h2]
    exact hwf.2 ct hct en hen

theorem resolveTargets_lt {p : Program} {key : DispatchKey} {c : Candidate} {tg : Nat}
    (hwf : WFProg p) (h : tg ∈ resolveTargets p key c) : tg < p.funcs.length := by
  cases key with
  | iface i m =>
      cases c with
      | typ t =>
          simp only [resolveTargets] at h
          split at h
          · split at h
            · rcases hlm : lookupMethod p t m with _ | g
              · rw [hlm] at h
                cases h
              · rw [hlm] at h
                simp only [Option.toList_some, List.mem_singleton] at h
                subst h
                exact lookupMethod_lt hwf hlm
            · cases h
          · cases h
      | func g => simp only [resolveTargets] at h; cases h
  | signature sg =>
      cases c with
      | typ t => simp only [resolveTargets] at h; cases h
      | func g =>
          simp only [resolveTargets] at h
          split at h
          · rename_i hcond
            rw [List.mem_singleton] at h
            subst h
            exact hcond.1
          · cases h

/-! ### Preservation of the core invariant -/

theorem noCross_addEdge {p : Program} {s : EngineState} (a b : Nat) (k : EdgeKind)
    (h : NoCross p s) : NoCross p (addEdge s a b k) := by
  obtain ⟨h1, h2, h3, h4, h5, h6, h7, h8, h9⟩ := h
  exact ⟨by simpa using h1, by simpa using h2, by simpa using h3, by simpa using h4,
    by simpa using h5, by simpa using h6, by simpa using h7, by simpa using h8,
    addEdge_nodup s a b k h9⟩

theorem noCross_register {p : Program} {s : EngineState} (a : Nat) (key : DispatchKey)
    (h : NoCross p s) : NoCross p (register s a key) := by
  obtain ⟨h1, h2, h3, h4, h5, h6, h7, h8, h9⟩ := h
  exact ⟨by simpa using h1, by simpa using h2, by simpa using h3, by simpa using h4,
    by simpa using h5, by simpa using h6, by simpa using h7, by simpa using h8,
    by simpa using h9⟩

theorem noCross_markReachable {p : Program} {s : EngineState} {f : Nat}
    (hf : f < p.funcs.length) (h : NoCross p s) : NoCross p (markReachable s f) := by
  by_cases hmem : f ∈ s.reachable
  · rw [markReachable_of_mem s f hmem]; exact h
  · rw [markReachable_of_not_mem s f hmem]
    obtain ⟨h1, h2, h3, h4, h5, h6, h7, h8, h9⟩ := h
    refine ⟨?_, ?_, ?_, h4, ?_, ?_, ?_, h8, h9⟩
    · intro x hx
      rcases List.mem_append.mp hx with hx | hx
      · exact List.mem_append_left _ (h1 x hx)
      · exact List.mem_append_right _ hx
    · intro x hx
      rcases List.mem_append.mp hx with hx | hx
      · exact h2 x hx
      · rw [List.mem_singleton] at hx
        subst hx
        intro hp
        exact hmem (h5 x hp)
    · rw [List.nodup_append]
      refine ⟨h3, List.nodup_singleton f, ?_⟩
      intro x hx hx2
      rw [List.mem_singleton] at hx2
      subst hx2
      exact hmem (h1 x hx)
    · intro x hx
      exact List.mem_append_left _ (h5 x hx)
    · intro x hx
      rcases List.mem_append.mp hx with hx | hx
      · rcases h6 x hx with hp | hqx
        · exact Or.inl hp
        · exact Or.inr (List.mem_append_left _ hqx)
      · exact Or.inr (List.mem_append_right _ hx)
    · intro x hx
      rcases List.mem_append.mp hx with hx | hx
      · exact h7 x hx
      · rw [List.mem_singleton] at hx
        subst hx
        exact hf

theorem invCore_addEdge {p : Program} {s : EngineState} (a b : Nat) (k : EdgeKind)
    (h : InvCore p s) : InvCore p (addEdge s a b k) :=
  ⟨noCross_addEdge a b k h.1,
   cross_of_grows (mono_addEdge s a b k).1 (by simp) (by simp) h.2⟩

theorem invCore_markReachable {p : Program} {s : EngineState} {f : Nat}
    (hf : f < p.funcs.length) (h : InvCore p s) : InvCore p (markReachable s f) :=
  ⟨noCross_markReachable hf h.1,
   cross_of_grows (mono_markReachable s f).1 (by simp) (by simp) h.2⟩

theorem noCross_emitResolution {p : Program} {s : EngineState} (hwf : WFProg p)
    (a : Nat) (key : DispatchKey) (c : Candidate) (h : NoCross p s) :
    NoCross p (emitResolution p s a key c) := by
  unfold emitResolution
  exact foldl_pres _ (NoCross p) _
    (fun s2 t ht h2 =>
      noCross_markReachable (resolveTargets_lt hwf ht) (noCross_addEdge a t (keyKind key) h2))
    s h

theorem emitResolution_establishes (p : Program) (s : EngineState) (a : Nat)
    (key : DispatchKey) (c : Candidate) :
    ∀ t ∈ resolveTargets p key c,
      (a, t, keyKind key) ∈ (emitResolution p s a key c).edges ∧
      t ∈ (emitResolution p s a key c).reachable := by
  unfold emitResolution
  exact foldl_estab _ (fun _ => True)
    (fun t s2 => (a, t, keyKind key) ∈ s2.edges ∧ t ∈ s2.reachable) _
    (fun _ _ _ _ => trivial)
    (fun (s2 : EngineState) (x t : Nat) hx ht h2 =>
      ⟨by
        simp only [markReachable_edges]
        exact mem_addEdge s2 a x (keyKind key) _ h2.1,
       mem_markReachable (addEdge s2 a x (keyKind key)) x t (by simpa using h2.2)⟩)
    (fun (s2 : EngineState) (t : Nat) ht _ =>
      ⟨by
        simp only [markReachable_edges]
        exact addEdge_self s2 a t (keyKind key),
       markReachable_self (addEdge s2 a t (keyKind key)) t⟩)
    s trivial

theorem processDynamicSite_establishes (p : Program) (s : EngineState) (a : Nat)
    (key : DispatchKey) :
    (∀ c ∈ s.instantiated, ∀ t ∈ resolveTargets p key c,
      (a, t, keyKind key) ∈ (processDynamicSite p s a key).edges ∧
      t ∈ (processDynamicSite p s a key).reachable) ∧
    (a, key) ∈ (processDynamicSite p s a key).registry := by
  constructor
  · unfold processDynamicSite
    exact @foldl_estab Candidate
      (fun s2 c => emitResolution p s2 a key c)
      (fun _ => True)
      (fun c s2 => ∀ t ∈ resolveTargets p key c,
        (a, t, keyKind key) ∈ s2.edges ∧ t ∈ s2.reachable)
      s.instantiated
      (fun _ _ _ _ => trivial)
      (fun s2 x c hx hc hQ t ht =>
        ⟨(mono_emitResolution p s2 a key x).1.edge _ ((hQ t ht).1),
         (mono_emitResolution p s2 a key x).1.reach _ ((hQ t ht).2)⟩)
      (fun s2 c hc _ => emitResolution_establishes p s2 a key c)
      (register s a key) trivial
  · rw [processDynamicSite_registry]
    exact register_self s a key

theorem invCore_processDynamicSite {p : Program} {s : EngineState} (hwf : WFProg p)
    (a : Nat) (key : DispatchKey) (h : InvCore p s) :
    InvCore p (processDynamicSite p s a key) := by
  obtain ⟨hnc, hcross⟩ := h
  constructor
  · unfold processDynamicSite
    exact foldl_pres _ (NoCross p) _
      (fun s2 c _ h2 => noCross_emitResolution hwf a key c h2) _
      (noCross_register a key hnc)
  · intro en hen
    rw [processDynamicSite_registry] at hen
    rcases mem_register_elim s a key en hen with hold | hnew
    · exact crossEntry_of_grows (mono_processDynamicSite p s a key).1 (by simp)
        (hcross en hold)
    · subst hnew
      intro c hc t ht
      rw [processDynamicSite_instantiated] at hc
      exact (processDynamicSite_establishes p s a key).1 c hc t ht

theorem resolveNewCandidate_establishes (p : Program) (s : EngineState) (c : Candidate) :
    ∀ en ∈ s.registry, ∀ t ∈ resolveTargets p en.2 c,
      (en.1, t, keyKind en.2) ∈ (resolveNewCandidate p s c).edges ∧
      t ∈ (resolveNewCandidate p s c).reachable := by
  unfold resolveNewCandidate
  exact @foldl_estab (Nat × DispatchKey)
    (fun s1 en => emitResolution p s1 en.1 en.2 c)
    (fun _ => True)
    (fun en s2 => ∀ t ∈ resolveTargets p en.2 c,
      (en.1, t, keyKind en.2) ∈ s2.edges ∧ t ∈ s2.reachable)
    s.registry
    (fun _ _ _ _ => trivial)
    (fun s2 x en hx hen hQ t ht =>
      ⟨(mono_emitResolution p s2 x.1 x.2 c).1.edge _ ((hQ t ht).1),
       (mono_emitResolution p s2 x.1 x.2 c).1.reach _ ((hQ t ht).2)⟩)
    (fun s2 en hen _ => emitResolution_establishes p s2 en.1 en.2 c)
    s trivial

theorem invCore_observeCandidate {p : Program} {s : EngineState} {c : Candidate}
    (hwf : WFProg p) (hc : CandValid p c) (h : InvCore p s) :
    InvCore p (observeCandidate p s c) := by
  by_cases hmem : c ∈ s.instantiated
  · rw [observeCandidate_of_mem p s c hmem]; exact h
  · rw [observeCandidate_of_not_mem p s c hmem]
    obtain ⟨hnc, hcross⟩ := h
    have hnc1 : NoCross p { s with instantiated := s.instantiated ++ [c] } := by
      obtain ⟨h1, h2, h3, h4, h5, h6, h7, h8, h9⟩ := hnc
      refine ⟨h1, h2, h3, h4, h5, h6, h7, ?_, h9⟩
      intro x hx
      rcases List.mem_append.mp hx with hx | hx
      · exact h8 x hx
      · rw [List.mem_singleton] at hx
        subst hx
        exact hc
    constructor
    · unfold resolveNewCandidate
      exact foldl_pres _ (NoCross p) _
        (fun s2 en _ h2 => noCross_emitResolution hwf en.1 en.2 c h2) _ hnc1
    · intro en hen c2 hc2 t ht
      rw [resolveNewCandidate_registry] at hen
      rw [resolveNewCandidate_instantiated] at hc2
      rcases List.mem_append.mp hc2 with hc2 | hc2
      · obtain ⟨he, hr⟩ := hcross en hen c2 hc2 t ht
        exact ⟨(mono_resolveNewCandidate p _ c).1.edge _ he,
               (mono_resolveNewCandidate p _ c).1.reach _ hr⟩
      · rw [List.mem_singleton] at hc2
        subst hc2
        exact resolveNewCandidate_establishes p _ c2 en hen t ht

theorem mem_staticTargets {fn : Function} {en : Nat × EdgeKind} :
    en ∈ staticTargets fn ↔ CallSite.static en.1 en.2 ∈ fn.calls := by
  unfold staticTargets
  rw [List.mem_filterMap]
  constructor
  · rintro ⟨cs, hcs, heq⟩
    cases cs with
    | static t2 k2 =>
        simp only [Option.some.injEq] at heq
        rw [← heq]
        exact hcs
    | dynamic key => cases heq
  · intro hcs
    exact ⟨CallSite.static en.1 en.2, hcs, rfl⟩

theorem mem_dynKeys {fn : Function} {key : DispatchKey} :
    key ∈ dynKeys fn ↔ CallSite.dynamic key ∈ fn.calls := by
  unfold dynKeys
  rw [List.mem_filterMap]
  constructor
  · rintro ⟨cs, hcs, heq⟩
    cases cs with
    | static t2 k2 => cases heq
    | dynamic key2 =>
        simp only [Option.some.injEq] at heq
        rw [← heq]
        exact hcs
  · intro hcs
    exact ⟨CallSite.dynamic key, hcs, rfl⟩

theorem invCore_processCallSite {p : Program} {s : EngineState} {f : Nat}
    (hwf : WFProg p) (hf : f < p.funcs.length) {cs : CallSite}
    (hcs : cs ∈ (funcAt p f).calls) (h : InvCore p s) :
    InvCore p (processCallSite p s f cs) ∧ SiteDone f cs (processCallSite p s f cs) := by
  cases cs with
  | static t k =>
      have htk : (t, k) ∈ staticTargets (funcAt p f) := mem_staticTargets.mpr hcs
      have hlt : t < p.funcs.length := ((hwf.1 _ (funcAt_mem hf)).1 (t, k) htk).1
      constructor
      · exact invCore_markReachable hlt (invCore_addEdge f t k h)
      · constructor
        · simp only [processCallSite, markReachable_edges]
          exact addEdge_self s f t k
        · exact markReachable_self (addEdge s f t k) t
  | dynamic key =>
      exact ⟨invCore_processDynamicSite hwf f key h,
             (processDynamicSite_establishes p s f key).2⟩

theorem scanFunction_invCore {p : Program} {s : EngineState} {f : Nat}
    (hwf : WFProg p) (hf : f < p.funcs.length) (h : InvCore p s) :
    InvCore p (scanFunction p s f) ∧ Scanned p (scanFunction p s f) f := by
  have hphase1 : InvCore p ((funcAt p f).calls.foldl (fun s2 cs => processCallSite p s2 f cs) s) :=
    foldl_pres _ (InvCore p) _
      (fun s2 cs hcs h2 => (invCore_processCallSite hwf hf hcs h2).1) s h
  have hsites : ∀ cs ∈ (funcAt p f).calls,
      SiteDone f cs ((funcAt p f).calls.foldl (fun s2 cs => processCallSite p s2 f cs) s) :=
    foldl_estab _ (InvCore p) (fun cs s2 => SiteDone f cs s2) _
      (fun s2 cs hcs h2 => (invCore_processCallSite hwf hf hcs h2).1)
      (fun (s2 : EngineState) (x cs : CallSite) hx hcs hQ =>
        siteDone_of_grows (mono_processCallSite p s2 f x).1 hQ)
      (fun s2 cs hcs h2 => (invCore_processCallSite hwf hf hcs h2).2)
      s h
  have hcv : ∀ c ∈ instCands (funcAt p f), CandValid p c :=
    (hwf.1 _ (funcAt_mem hf)).2
  have hphase2 : InvCore p (scanFunction p s f) := by
    unfold scanFunction
    exact foldl_pres _ (InvCore p) _
      (fun s2 c hc h2 => invCore_observeCandidate hwf (hcv c hc) h2) _ hphase1
  have hobs : ∀ c ∈ instCands (funcAt p f), c ∈ (scanFunction p s f).instantiated := by
    unfold scanFunction
    exact foldl_estab _ (fun _ => True) (fun c s2 => c ∈ s2.instantiated) _
      (fun _ _ _ _ => trivial)
      (fun (s2 : EngineState) (x c : Candidate) hx hc hQ =>
        (mono_observeCandidate p s2 x).1.inst _ hQ)
      (fun (s2 : EngineState) (c : Candidate) hc _ => mem_observeCandidate p s2 c)
      _ trivial
  have hmono2 : Mono ((funcAt p f).calls.foldl (fun s2 cs => processCallSite p s2 f cs) s)
      (scanFunction p s f) := by
    unfold scanFunction
    exact foldl_pres _ (Mono _) _
      (fun s2 c _ h2 => mono_seq h2 (mono_observeCandidate p s2 c)) _ (mono_id _)
  refine ⟨hphase2, ?_, ?_, hobs⟩
  · intro en hen
    have hd := hsites (CallSite.static en.1 en.2) (mem_staticTargets.mp hen)
    have hd2 := siteDone_of_grows hmono2.1 hd
    exact hd2
  · intro key hkey
    have hd := hsites (CallSite.dynamic key) (mem_dynKeys.mp hkey)
    exact siteDone_of_grows hmono2.1 hd

/-! ### The worklist step and the full run -/

theorem step_eq_nil {p : Program} {s : EngineState} (h : s.queue = []) : step p s = s := by
  unfold step
  rw [h]

theorem step_eq_cons {p : Program} {s : EngineState} {f : Nat} {rest : List Nat}
    (h : s.queue = f :: rest) :
    step p s = scanFunction p { s with queue := rest, processed := s.processed ++ [f] } f := by
  unfold step
  rw [h]

theorem step_processed_cons {p : Program} {s : EngineState} {f : Nat} {rest : List Nat}
    (h : s.queue = f :: rest) : (step p s).processed = s.processed ++ [f] := by
  rw [step_eq_cons h, (mono_scanFunction p _ f).2.2]

theorem inv_step {p : Program} {s : EngineState} (hwf : WFProg p) (h : Inv p s) :
    Inv p (step p s) ∧ Grows s (step p s) := by
  obtain ⟨hcore, hscan⟩ := h
  rcases hq : s.queue with _ | ⟨f, rest⟩
  · rw [step_eq_nil hq]
    exact ⟨⟨hcore, hscan⟩, grows_id s⟩
  · rw [step_eq_cons hq]
    obtain ⟨⟨h1, h2, h3, h4, h5, h6, h7, h8, h9⟩, hcross⟩ := hcore
    have hfq : f ∈ s.queue := by rw [hq]; exact List.mem_cons_self _ _
    have hfreach : f ∈ s.reachable := h1 f hfq
    have hflt : f < p.funcs.length := h7 f hfreach
    have hfnp : f ∉ s.processed := h2 f hfq
    have hqnd : (f :: rest).Nodup := by rw [← hq]; exact h3
    have hcore1 : InvCore p { s with queue := rest, processed := s.processed ++ [f] } := by
      refine ⟨⟨?_, ?_, ?_, ?_, ?_, ?_, h7, h8, h9⟩, hcross⟩
      · intro x hx
        exact h1 x (by rw [hq]; exact List.mem_cons_of_mem _ hx)
      · intro x hx hp
        have hxq : x ∈ s.queue := by rw [hq]; exact List.mem_cons_of_mem _ hx
        rcases List.mem_append.mp hp with hp | hp
        · exact h2 x hxq hp
        · rw [List.mem_singleton] at hp
          subst hp
          exact (List.nodup_cons.mp hqnd).1 hx
      · exact (List.nodup_cons.mp hqnd).2
      · rw [List.nodup_append]
        refine ⟨h4, List.nodup_singleton f, ?_⟩
        intro x hx hx2
        rw [List.mem_singleton] at hx2
        subst hx2
        exact hfnp hx
      · intro x hx
        rcases List.mem_append.mp hx with hx | hx
        · exact h5 x hx
        · rw [List.mem_singleton] at hx
          subst hx
          exact hfreach
      · intro x hx
        rcases h6 x hx with hp | hqx
        · exact Or.inl (List.mem_append_left _ hp)
        · rw [hq] at hqx
          rcases List.mem_cons.mp hqx with hx2 | hx2
          · subst hx2
            exact Or.inl (List.mem_append_right _ (List.mem_singleton.mpr rfl))
          · exact Or.inr hx2
    obtain ⟨hinv2, hscanned2⟩ := scanFunction_invCore hwf hflt hcore1
    have hmono : Mono { s with queue := rest, processed := s.processed ++ [f] }
        (scanFunction p { s with queue := rest, processed := s.processed ++ [f] } f) :=
      mono_scanFunction p _ f
    constructor
    · refine ⟨hinv2, ?_⟩
      intro g hg
      rw [hmono.2.2] at hg
      rcases List.mem_append.mp hg with hg | hg
      · exact scanned_of_grows hmono.1 (hscan g hg)
      · rw [List.mem_singleton] at hg
        subst hg
        exact hscanned2
    · refine grows_seq ?_ hmono.1
      exact ⟨fun x hx => hx, fun x hx => hx, fun x hx => hx, fun x hx => hx⟩

theorem inv_run {p : Program} (hwf : WFProg p) :
    ∀ (fuel : Nat) (s : EngineState), Inv p s →
      Inv p (run p fuel s) ∧ Grows s (run p fuel s) := by
  intro fuel
  induction fuel with
  | zero => exact fun s h => ⟨h, grows_id s⟩
  | succ n ih =>
      intro s h
      unfold run
      by_cases hq : s.queue = []
      · rw [if_pos hq]
        exact ⟨h, grows_id s⟩
      · rw [if_neg hq]
        obtain ⟨h1, h2⟩ := inv_step hwf h
        obtain ⟨h3, h4⟩ := ih (step p s) h1
        exact ⟨h3, grows_seq h2 h4⟩

theorem nodup_bounded_length {l : List Nat} {n : Nat} (hnd : l.Nodup)
    (hlt : ∀ x ∈ l, x < n) : l.length ≤ n := by
  have hsub : l.toFinset ⊆ Finset.range n := by
    intro x hx
    rw [List.mem_toFinset] at hx
    rw [Finset.mem_range]
    exact hlt x hx
  have hcard := Finset.card_le_card hsub
  rw [List.toFinset_card_of_nodup hnd, Finset.card_range] at hcard
  exact hcard

theorem run_queue_empty {p : Program} (hwf : WFProg p) :
    ∀ (fuel : Nat) (s : EngineState), Inv p s →
      p.funcs.length ≤ fuel + s.processed.length → (run p fuel s).queue = [] := by
  intro fuel
  induction fuel with
  | zero =>
      intro s h hle
      rcases hq : s.queue with _ | ⟨f, rest⟩
      · exact hq
      · exfalso
        obtain ⟨⟨⟨h1, h2, h3, h4, h5, h6, h7, h8, h9⟩, _⟩, _⟩ := h
        have hfq : f ∈ s.queue := by rw [hq]; exact List.mem_cons_self _ _
        have hfreach := h1 f hfq
        have hflt := h7 f hfreach
        have hfnp := h2 f hfq
        have hnd : (f :: s.processed).Nodup := List.nodup_cons.mpr ⟨hfnp, h4⟩
        have hbound : ∀ x ∈ f :: s.processed, x < p.funcs.length := by
          intro x hx
          rcases List.mem_cons.mp hx with hx | hx
          · subst hx; exact hflt
          · exact h7 x (h5 x hx)
        have hlen := nodup_bounded_length hnd hbound
        simp only [List.length_cons] at hlen
        omega
  | succ n ih =>
      intro s h hle
      unfold run
      by_cases hq : s.queue = []
      · rw [if_pos hq]
        exact hq
      · rw [if_neg hq]
        rcases hq2 : s.queue with _ | ⟨f, rest⟩
        · exact absurd hq2 hq
        · apply ih (step p s) (inv_step hwf h).1
          rw [step_processed_cons hq2, List.length_append, List.length_singleton]
          omega

theorem inv_markReachable {p : Program} {s : EngineState} {f : Nat}
    (hf : f < p.funcs.length) (h : Inv p s) : Inv p (markReachable s f) := by
  refine ⟨invCore_markReachable hf h.1, ?_⟩
  intro g hg
  exact scanned_of_grows (mono_markReachable s f).1 (h.2 g (by simpa using hg))

theorem inv_emptyState (p : Program) : Inv p emptyState := by
  refine ⟨⟨⟨?_, ?_, ?_, ?_, ?_, ?_, ?_, ?_, ?_⟩, ?_⟩, ?_⟩ <;>
    first
      | exact fun x hx => absurd hx (List.not_mem_nil x)
      | exact List.nodup_nil

theorem inv_initState {p : Program} {roots : List Nat} (hwf : WellFormed p roots) :
    Inv p (initState roots) ∧ ∀ r ∈ roots, r ∈ (initState roots).reachable := by
  constructor
  · unfold initState
    exact foldl_pres _ (Inv p) _
      (fun s2 r hr h2 => inv_markReachable (hwf.2 r hr) h2) _ (inv_emptyState p)
  · unfold initState
    exact @foldl_estab Nat markReachable (fun _ => True)
      (fun r s2 => r ∈ s2.reachable) roots
      (fun _ _ _ _ => trivial)
      (fun s2 x r hx hr hQ => mem_markReachable s2 x r hQ)
      (fun s2 r hr _ => markReachable_self s2 r)
      emptyState trivial

/-- The bundled facts about the state reached by a full analysis run. -/
theorem analyze_props {p : Program} {roots : List Nat} (hwf : WellFormed p roots) :
    Inv p (analyze p roots) ∧ (analyze p roots).queue = [] ∧
      (∀ r ∈ roots, r ∈ (analyze p roots).reachable) := by
  obtain ⟨hinv0, hroots⟩ := inv_initState hwf
  have hrun := inv_run hwf.1 p.funcs.length (initState roots) hinv0
  have hq := run_queue_empty hwf.1 p.funcs.length (initState roots) hinv0
    (Nat.le_add_right _ _)
  exact ⟨hrun.1, hq, fun r hr => hrun.2.reach r (hroots r hr)⟩

/-- At the empty-queue fixpoint every reachable function has been scanned. -/
theorem reachable_scanned {p : Program} {s : EngineState} {f : Nat}
    (h : Inv p s) (hq : s.queue = []) (hf : f ∈ s.reachable) : Scanned p s f := by
  obtain ⟨⟨⟨h1, h2, h3, h4, h5, h6, h7, h8, h9⟩, hcross⟩, hscan⟩ := h
  rcases h6 f hf with hp | hqf
  · exact hscan f hp
  · rw [hq] at hqf
    cases hqf

/-! ### State-machine monotonicity and the step bound -/

theorem fstate_rank_le_step {p : Program} {s : EngineState} (_ : Inv p s) (g : Nat) :
    (fstate s g).rank ≤ (fstate (step p s) g).rank := by
  rcases hq : s.queue with _ | ⟨f, rest⟩
  · rw [step_eq_nil hq]
  · rw [step_eq_cons hq]
    have hproc2 : (scanFunction p
        { s with queue := rest, processed := s.processed ++ [f] } f).processed =
        s.processed ++ [f] :=
      (mono_scanFunction p _ f).2.2
    unfold fstate
    by_cases hp : g ∈ s.processed
    · have hp2 : g ∈ (scanFunction p
          { s with queue := rest, processed := s.processed ++ [f] } f).processed := by
        rw [hproc2]
        exact List.mem_append_left _ hp
      rw [if_pos hp, if_pos hp2]
    · rw [if_neg hp]
      by_cases hqg : g ∈ s.queue
      · rw [if_pos hqg]
        by_cases hp2 : g ∈ (scanFunction p
            { s with queue := rest, processed := s.processed ++ [f] } f).processed
        · rw [if_pos hp2]
          decide
        · rw [if_neg hp2]
          have hq2 : g ∈ (scanFunction p
              { s with queue := rest, processed := s.processed ++ [f] } f).queue := by
            rw [hq] at hqg
            rcases List.mem_cons.mp hqg with hg | hg
            · exfalso
              apply hp2
              rw [hproc2]
              subst hg
              exact List.mem_append_right _ (List.mem_singleton.mpr rfl)
            · exact (mono_scanFunction p _ f).2.1 g hg
          rw [if_pos hq2]
      · rw [if_neg hqg]
        exact Nat.zero_le _

theorem nodup_bounded_sum {l : List Nat} {n : Nat} (w : Nat → Nat) (hnd : l.Nodup)
    (hlt : ∀ x ∈ l, x < n) : (l.map w).sum ≤ ((List.range n).map w).sum := by
  rw [← List.sum_toFinset w hnd, ← List.sum_toFinset w (List.nodup_range n)]
  apply Finset.sum_le_sum_of_subset
  intro x hx
  rw [List.mem_toFinset] at hx ⊢
  exact List.mem_range.mpr (hlt x hx)

/-! ### Idempotence of the registry and the tracker -/

theorem addEdge_of_mem (s : EngineState) (a b : Nat) (k : EdgeKind)
    (h : (a, b, k) ∈ s.edges) : addEdge s a b k = s := by
  unfold addEdge
  rw [if_pos h]

theorem processDynamicSite_idem (p : Program) (s : EngineState) (a : Nat)
    (key : DispatchKey) :
    processDynamicSite p (processDynamicSite p s a key) a key =
      processDynamicSite p s a key := by
  have hreg1 : register (processDynamicSite p s a key) a key =
      processDynamicSite p s a key :=
    register_of_mem _ _ _ (processDynamicSite_establishes p s a key).2
  have hinst1 : (processDynamicSite p s a key).instantiated = s.instantiated :=
    processDynamicSite_instantiated p s a key
  conv =>
    lhs
    rw [processDynamicSite]
  rw [hreg1, hinst1]
  apply foldl_id_of
  intro c hc
  apply foldl_id_of
  intro t ht
  obtain ⟨he, hr⟩ := (processDynamicSite_establishes p s a key).1 c hc t ht
  rw [addEdge_of_mem _ _ _ _ he]
  exact markReachable_of_mem _ _ hr

theorem observeCandidate_idem (p : Program) (s : EngineState) (c : Candidate) :
    observeCandidate p (observeCandidate p s c) c = observeCandidate p s c :=
  observeCandidate_of_mem p _ c (mem_observeCandidate p s c)

theorem observe_true_iff (s : EngineState) (c : Candidate) :
    (observe s c).1 = true ↔ c ∉ s.instantiated := by
  unfold observe
  by_cases h : c ∈ s.instantiated
  · rw [if_pos h]
    simp [h]
  · rw [if_neg h]
    simp [h]

theorem observe_of_mem (s : EngineState) (c : Candidate) (h : c ∈ s.instantiated) :
    observe s c = (false, s) := by
  unfold observe
  rw [if_pos h]

theorem emitResolution_edges_nodup (p : Program) (s : EngineState) (a : Nat)
    (key : DispatchKey) (c : Candidate) (h : s.edges.Nodup) :
    (emitResolution p s a key c).edges.Nodup := by
  unfold emitResolution
  refine foldl_pres _ (fun s2 => s2.edges.Nodup) _ ?_ s h
  intro s2 t ht h2
  simp only [markReachable_edges]
  exact addEdge_nodup s2 a t (keyKind key) h2

theorem processDynamicSite_edges_nodup (p : Program) (s : EngineState) (a : Nat)
    (key : DispatchKey) (h : s.edges.Nodup) :
    (processDynamicSite p s a key).edges.Nodup := by
  unfold processDynamicSite
  refine foldl_pres _ (fun s2 => s2.edges.Nodup) _ ?_ _ (by simpa using h)
  intro s2 c hc h2
  exact emitResolution_edges_nodup p s2 a key c h2

theorem observeCandidate_edges_nodup (p : Program) (s : EngineState) (c : Candidate)
    (h : s.edges.Nodup) : (observeCandidate p s c).edges.Nodup := by
  by_cases hmem : c ∈ s.instantiated
  · rw [observeCandidate_of_mem p s c hmem]
    exact h
  · rw [observeCandidate_of_not_mem p s c hmem]
    unfold resolveNewCandidate
    refine foldl_pres _ (fun s2 => s2.edges.Nodup) _ ?_ _ h
    intro s2 en hen h2
    exact emitResolution_edges_nodup p s2 en.1 en.2 c h2

/-! ### Closure of the runtime-type set under pointer formation -/

theorem scanFunction_observes (p : Program) (s : EngineState) (f : Nat) :
    ∀ c ∈ instCands (funcAt p f), c ∈ (scanFunction p s f).instantiated := by
  unfold scanFunction
  exact @foldl_estab Candidate (fun s2 c => observeCandidate p s2 c) (fun _ => True)
    (fun c s2 => c ∈ s2.instantiated) (instCands (funcAt p f))
    (fun _ _ _ _ => trivial)
    (fun s2 x c hx hc hQ => (mono_observeCandidate p s2 x).1.inst _ hQ)
    (fun s2 c hc _ => mem_observeCandidate p s2 c)
    _ trivial

theorem instCands_partner {fn : Function} {n : Nat}
    (h : Candidate.typ (TypeRef.base n) ∈ instCands fn) :
    Candidate.typ (TypeRef.ptr n) ∈ instCands fn := by
  unfold instCands at h ⊢
  rw [List.mem_flatMap] at h ⊢
  obtain ⟨site, hsite, hc⟩ := h
  refine ⟨site, hsite, ?_⟩
  cases site with
  | typ t =>
      cases t with
      | base m =>
          have hc2 : Candidate.typ (TypeRef.base n) ∈
              [Candidate.typ (TypeRef.base m), Candidate.typ (TypeRef.ptr m)] := hc
          rcases List.mem_cons.mp hc2 with he | he
          · injection he with h2
            injection h2 with h3
            subst h3
            exact List.mem_cons_of_mem _ (List.mem_singleton.mpr rfl)
          · rw [List.mem_singleton] at he
            injection he with h2
            cases h2
      | ptr m =>
          have hc2 : Candidate.typ (TypeRef.base n) ∈
              [Candidate.typ (TypeRef.ptr m), Candidate.typ (TypeRef.base m)] := hc
          rcases List.mem_cons.mp hc2 with he | he
          · injection he with h2
            cases h2
          · rw [List.mem_singleton] at he
            injection he with h2
            injection h2 with h3
            subst h3
            exact List.mem_cons_self _ _
  | func g =>
      have hc2 : Candidate.typ (TypeRef.base n) ∈ [Candidate.func g] := hc
      rw [List.mem_singleton] at hc2
      cases hc2

theorem ptrClosed_scanFunction {p : Program} {s : EngineState} {f : Nat}
    (h : PtrClosed s.instantiated) : PtrClosed (scanFunction p s f).instantiated := by
  have hphase1 : ((funcAt p f).calls.foldl
      (fun s2 cs => processCallSite p s2 f cs) s).instantiated = s.instantiated :=
    foldl_fixed _ EngineState.instantiated
      (fun s2 cs => processCallSite_instantiated p s2 f cs) _ s
  have hsub : ∀ x ∈ (scanFunction p s f).instantiated,
      x ∈ s.instantiated ∨ x ∈ instCands (funcAt p f) := by
    unfold scanFunction
    refine foldl_pres _
      (fun s2 => ∀ x ∈ s2.instantiated,
        x ∈ s.instantiated ∨ x ∈ instCands (funcAt p f)) _ ?_ _ ?_
    · intro s2 c hc hP x hx
      rcases observeCandidate_instantiated_sub p s2 c x hx with hx2 | hx2
      · exact hP x hx2
      · subst hx2
        exact Or.inr hc
    · intro x hx
      rw [hphase1] at hx
      exact Or.inl hx
  have hall := scanFunction_observes p s f
  have hmonoinst : ∀ x ∈ s.instantiated, x ∈ (scanFunction p s f).instantiated :=
    fun x hx => (mono_scanFunction p s f).1.inst x hx
  intro c hc d hd
  rcases hsub c hc with hcs | hcc
  · exact hmonoinst d (h c hcs d hd)
  · cases c with
    | typ t =>
        cases t with
        | base n =>
            rw [List.mem_singleton] at hd
            subst hd
            exact hall _ (instCands_partner hcc)
        | ptr n => cases hd
    | func g => cases hd

theorem ptrClosed_step {p : Program} {s : EngineState}
    (h : PtrClosed s.instantiated) : PtrClosed (step p s).instantiated := by
  rcases hq : s.queue with _ | ⟨f, rest⟩
  · rw [step_eq_nil hq]
    exact h
  · rw [step_eq_cons hq]
    exact ptrClosed_scanFunction h

theorem ptrClosed_run {p : Program} :
    ∀ (fuel : Nat) (s : EngineState), PtrClosed s.instantiated →
      PtrClosed (run p fuel s).instantiated := by
  intro fuel
  induction fuel with
  | zero => exact fun s h => h
  | succ n ih =>
      intro s h
      unfold run
      by_cases hq : s.queue = []
      · rw [if_pos hq]
        exact h
      · rw [if_neg hq]
        exact ih (step p s) (ptrClosed_step h)

theorem initState_instantiated (roots : List Nat) :
    (initState roots).instantiated = [] := by
  unfold initState
  rw [foldl_fixed _ EngineState.instantiated
    (fun s2 r => markReachable_instantiated s2 r) _ _]
  rfl

theorem ptrClosed_analyze (p : Program) (roots : List Nat) :
    PtrClosed (analyze p roots).instantiated := by
  unfold analyze
  apply ptrClosed_run
  rw [initState_instantiated]
  intro c hc
  cases hc

/-! ### Soundness: every element of the working sets is justified -/

theorem just_markReachable {p : Program} {roots : List Nat} {s : EngineState} {f : Nat}
    (hf : Reach p roots f) (h : JustState p roots s) :
    JustState p roots (markReachable s f) := by
  by_cases hmem : f ∈ s.reachable
  · rw [markReachable_of_mem s f hmem]
    exact h
  · rw [markReachable_of_not_mem s f hmem]
    obtain ⟨h1, h2, h3⟩ := h
    refine ⟨?_, h2, h3⟩
    intro x hx
    rcases List.mem_append.mp hx with hx | hx
    · exact h1 x hx
    · rw [List.mem_singleton] at hx
      subst hx
      exact hf

theorem just_addEdge {p : Program} {roots : List Nat} {s : EngineState}
    (a b : Nat) (k : EdgeKind) (h : JustState p roots s) :
    JustState p roots (addEdge s a b k) := by
  obtain ⟨h1, h2, h3⟩ := h
  exact ⟨by simpa using h1, by simpa using h2, by simpa using h3⟩

theorem just_emitResolution {p : Program} {roots : List Nat} {s : EngineState}
    {a : Nat} {key : DispatchKey} {c : Candidate}
    (hres : ∀ t ∈ resolveTargets p key c, Reach p roots t)
    (h : JustState p roots s) : JustState p roots (emitResolution p s a key c) := by
  unfold emitResolution
  exact foldl_pres _ (JustState p roots) _
    (fun s2 t ht h2 => just_markReachable (hres t ht) (just_addEdge a t (keyKind key) h2))
    s h

theorem just_processDynamicSite {p : Program} {roots : List Nat} {s : EngineState}
    {a : Nat} {key : DispatchKey}
    (ha : Reach p roots a) (hkey : key ∈ dynKeys (funcAt p a))
    (h : JustState p roots s) : JustState p roots (processDynamicSite p s a key) := by
  have h1 : JustState p roots (register s a key) := by
    obtain ⟨j1, j2, j3⟩ := h
    refine ⟨by simpa using j1, by simpa using j2, ?_⟩
    intro en hen
    rcases mem_register_elim s a key en hen with hold | hnew
    · exact j3 en hold
    · subst hnew
      exact ⟨ha, hkey⟩
  unfold processDynamicSite
  refine foldl_pres _ (JustState p roots) _ ?_ _ h1
  intro s2 c hc h2
  refine just_emitResolution ?_ h2
  intro t ht
  obtain ⟨hfn, hrf, hcf⟩ := h.2.1 c hc
  exact Reach.dynStep a key hfn c t ha hkey hrf hcf ht

theorem just_resolveNewCandidate {p : Program} {roots : List Nat} {s : EngineState}
    {c : Candidate} (hc : InstJ p roots c) (h : JustState p roots s) :
    JustState p roots (resolveNewCandidate p s c) := by
  unfold resolveNewCandidate
  refine foldl_pres _ (JustState p roots) _ ?_ s h
  intro s2 en hen h2
  refine just_emitResolution ?_ h2
  intro t ht
  obtain ⟨hre, hke⟩ := h.2.2 en hen
  obtain ⟨hfn, hrf, hcf⟩ := hc
  exact Reach.dynStep en.1 en.2 hfn c t hre hke hrf hcf ht

theorem just_observeCandidate {p : Program} {roots : List Nat} {s : EngineState}
    {c : Candidate} (hc : InstJ p roots c) (h : JustState p roots s) :
    JustState p roots (observeCandidate p s c) := by
  by_cases hmem : c ∈ s.instantiated
  · rw [observeCandidate_of_mem p s c hmem]
    exact h
  · rw [observeCandidate_of_not_mem p s c hmem]
    refine just_resolveNewCandidate hc ?_
    obtain ⟨h1, h2, h3⟩ := h
    refine ⟨h1, ?_, h3⟩
    intro x hx
    rcases List.mem_append.mp hx with hx | hx
    · exact h2 x hx
    · rw [List.mem_singleton] at hx
      subst hx
      exact hc

theorem just_processCallSite {p : Program} {roots : List Nat} {s : EngineState}
    {f : Nat} {cs : CallSite}
    (ha : Reach p roots f) (hcs : cs ∈ (funcAt p f).calls)
    (h : JustState p roots s) : JustState p roots (processCallSite p s f cs) := by
  cases cs with
  | static t k =>
      exact just_markReachable
        (Reach.staticStep f t k ha (mem_staticTargets.mpr hcs))
        (just_addEdge f t k h)
  | dynamic key =>
      exact just_processDynamicSite ha (mem_dynKeys.mpr hcs) h

theorem just_scanFunction {p : Program} {roots : List Nat} {s : EngineState} {f : Nat}
    (ha : Reach p roots f) (h : JustState p roots s) :
    JustState p roots (scanFunction p s f) := by
  unfold scanFunction
  have h1 : JustState p roots
      ((funcAt p f).calls.foldl (fun s2 cs => processCallSite p s2 f cs) s) :=
    foldl_pres _ (JustState p roots) _
      (fun s2 cs hcs h2 => just_processCallSite ha hcs h2) s h
  refine foldl_pres _ (JustState p roots) _ ?_ _ h1
  intro s2 c hc h2
  exact just_observeCandidate ⟨f, ha, hc⟩ h2

theorem just_step {p : Program} {roots : List Nat} {s : EngineState}
    (hqr : ∀ f ∈ s.queue, f ∈ s.reachable)
    (h : JustState p roots s) : JustState p roots (step p s) := by
  rcases hq : s.queue with _ | ⟨f, rest⟩
  · rw [step_eq_nil hq]
    exact h
  · rw [step_eq_cons hq]
    have hf : Reach p roots f :=
      h.1 f (hqr f (by rw [hq]; exact List.mem_cons_self _ _))
    exact just_scanFunction hf h

theorem just_run {p : Program} {roots : List Nat} (hwf : WFProg p) :
    ∀ (fuel : Nat) (s : EngineState), Inv p s → JustState p roots s →
      JustState p roots (run p fuel s) := by
  intro fuel
  induction fuel with
  | zero => exact fun s _ h => h
  | succ n ih =>
      intro s hinv h
      unfold run
      by_cases hq : s.queue = []
      · rw [if_pos hq]
        exact h
      · rw [if_neg hq]
        refine ih (step p s) (inv_step hwf hinv).1 ?_
        exact just_step (fun f hf => hinv.1.1.1 f hf) h

theorem just_initState {p : Program} {roots : List Nat} :
    JustState p roots (initState roots) := by
  unfold initState
  refine foldl_pres _ (JustState p roots) _ ?_ _ ?_
  · intro s2 r hr h2
    exact just_markReachable (Reach.root r hr) h2
  · exact ⟨fun x hx => absurd hx (List.not_mem_nil x),
      fun x hx => absurd hx (List.not_mem_nil x),
      fun x hx => absurd hx (List.not_mem_nil x)⟩

theorem analyze_sound {p : Program} {roots : List Nat} (hwf : WellFormed p roots) :
    (∀ f ∈ (analyze p roots).reachable, Reach p roots f) ∧
    (∀ c ∈ (analyze p roots).instantiated, InstJ p roots c) := by
  have hinit := (inv_initState hwf).1
  have hj := @just_run p roots hwf.1 p.funcs.length (initState roots) hinit
    just_initState
  unfold analyze
  exact ⟨hj.1, hj.2.1⟩

theorem reach_complete {p : Program} {roots : List Nat} (hwf : WellFormed p roots) :
    ∀ f, Reach p roots f → f ∈ (analyze p roots).reachable := by
  obtain ⟨hinv, hq, hroots⟩ := analyze_props hwf
  intro f hf
  induction hf with
  | root g hg => exact hroots g hg
  | staticStep g t k hg hsite ih =>
      exact ((reachable_scanned hinv hq ih).1 (t, k) hsite).2
  | dynStep g key hfn c t hg hkey hh hc ht ihg ihh =>
      have hreg := (reachable_scanned hinv hq ihg).2.1 key hkey
      have hinst := (reachable_scanned hinv hq ihh).2.2 c hc
      exact (hinv.1.2 (g, key) hreg c hinst t ht).2

theorem inst_complete {p : Program} {roots : List Nat} (hwf : WellFormed p roots) :
    ∀ c, InstJ p roots c → c ∈ (analyze p roots).instantiated := by
  obtain ⟨hinv, hq, hroots⟩ := analyze_props hwf
  rintro c ⟨hfn, hrf, hcf⟩
  exact (reachable_scanned hinv hq (reach_complete hwf hfn hrf)).2.2 c hcf

/-! ### Transport along permutations of the site lists -/

theorem funcAt_default {p : Program} {f : Nat} (h : p.funcs.length ≤ f) :
    funcAt p f = ⟨0, [], []⟩ := by
  unfold funcAt
  exact List.getD_eq_default _ _ h

theorem methodsOf_congr {p q : Program} (h : p.types = q.types) :
    methodsOf p = methodsOf q := by
  funext t
  unfold methodsOf
  rw [h]

theorem lookupMethod_congr {p q : Program} (h : p.types = q.types) :
    lookupMethod p = lookupMethod q := by
  funext t m
  unfold lookupMethod
  rw [methodsOf_congr h]

theorem implementsIface_congr {p q : Program} (h : p.types = q.types) :
    implementsIface p = implementsIface q := by
  funext t I
  unfold implementsIface
  rw [lookupMethod_congr h]

theorem findIface_congr {p q : Program} (h : p.ifaces = q.ifaces) :
    findIface p = findIface q := by
  funext i
  unfold findIface
  rw [h]

theorem sitePerm_funcAt {p q : Program} (hsp : SitePerm p q) (i : Nat) :
    (funcAt p i).sig = (funcAt q i).sig ∧
    (funcAt p i).calls.Perm (funcAt q i).calls ∧
    (funcAt p i).insts.Perm (funcAt q i).insts := by
  obtain ⟨hty, hif, hlen, hfn⟩ := hsp
  by_cases hi : i < p.funcs.length
  · exact hfn i hi
  · have h1 : funcAt p i = ⟨0, [], []⟩ := funcAt_default (Nat.le_of_not_lt hi)
    have h2 : funcAt q i = ⟨0, [], []⟩ :=
      funcAt_default (by rw [← hlen]; exact Nat.le_of_not_lt hi)
    rw [h1, h2]
    exact ⟨rfl, List.Perm.refl _, List.Perm.refl _⟩

theorem resolveTargets_congr {p q : Program} (hsp : SitePerm p q) (key : DispatchKey)
    (c : Candidate) : resolveTargets p key c = resolveTargets q key c := by
  cases key with
  | iface i m =>
      cases c with
      | typ t =>
          simp only [resolveTargets]
          rw [findIface_congr hsp.2.1, implementsIface_congr hsp.1,
            lookupMethod_congr hsp.1]
      | func g => rfl
  | signature sg =>
      cases c with
      | typ t => rfl
      | func g =>
          simp only [resolveTargets]
          rw [hsp.2.2.1, (sitePerm_funcAt hsp g).1]

theorem staticTargets_iff {p q : Program} (hsp : SitePerm p q) (i : Nat)
    {en : Nat × EdgeKind} :
    en ∈ staticTargets (funcAt p i) ↔ en ∈ staticTargets (funcAt q i) :=
  ((sitePerm_funcAt hsp i).2.1.filterMap _).mem_iff

theorem dynKeys_iff {p q : Program} (hsp : SitePerm p q) (i : Nat)
    {key : DispatchKey} :
    key ∈ dynKeys (funcAt p i) ↔ key ∈ dynKeys (funcAt q i) :=
  ((sitePerm_funcAt hsp i).2.1.filterMap _).mem_iff

theorem instCands_iff {p q : Program} (hsp : SitePerm p q) (i : Nat)
    {c : Candidate} :
    c ∈ instCands (funcAt p i) ↔ c ∈ instCands (funcAt q i) := by
  have hperm := (sitePerm_funcAt hsp i).2.2
  unfold instCands
  constructor
  · intro h
    rw [List.mem_flatMap] at h ⊢
    obtain ⟨site, hsite, hc⟩ := h
    exact ⟨site, hperm.mem_iff.mp hsite, hc⟩
  · intro h
    rw [List.mem_flatMap] at h ⊢
    obtain ⟨site, hsite, hc⟩ := h
    exact ⟨site, hperm.mem_iff.mpr hsite, hc⟩

theorem reach_sitePerm {p q : Program} {roots : List Nat} (hsp : SitePerm p q) :
    ∀ f, Reach p roots f → Reach q roots f := by
  intro f hf
  induction hf with
  | root g hg => exact Reach.root g hg
  | staticStep g t k hg hsite ih =>
      exact Reach.staticStep g t k ih ((staticTargets_iff hsp g).mp hsite)
  | dynStep g key hfn c t hg hkey hh hc ht ihg ihh =>
      refine Reach.dynStep g key hfn c t ihg ((dynKeys_iff hsp g).mp hkey) ihh
        ((instCands_iff hsp hfn).mp hc) ?_
      rw [← resolveTargets_congr hsp key c]
      exact ht

theorem sitePerm_symm {p q : Program} (hsp : SitePerm p q) : SitePerm q p := by
  obtain ⟨hty, hif, hlen, hfn⟩ := hsp
  refine ⟨hty.symm, hif.symm, hlen.symm, ?_⟩
  intro i hi
  have h := hfn i (by rw [hlen]; exact hi)
  exact ⟨h.1.symm, h.2.1.symm, h.2.2.symm⟩

theorem candValid_congr {p q : Program} (hty : p.types = q.types)
    (hlen : p.funcs.length = q.funcs.length) {c : Candidate}
    (h : CandValid p c) : CandValid q c := by
  cases c with
  | typ t =>
      show t ∈ q.types.map ConcreteType.ref
      rw [← hty]
      exact h
  | func g =>
      show g < q.funcs.length
      rw [← hlen]
      exact h

theorem wellFormed_sitePerm {p q : Program} {roots : List Nat} (hsp : SitePerm p q)
    (hwf : WellFormed p roots) : WellFormed q roots := by
  refine ⟨⟨?_, ?_⟩, ?_⟩
  · intro fn hfn
    obtain ⟨i, hi, heq⟩ := List.mem_iff_getElem.mp hfn
    have hfq : funcAt q i = fn := by
      unfold funcAt
      rw [List.getD_eq_getElem _ _ hi]
      exact heq
    have hip : i < p.funcs.length := by
      rw [hsp.2.2.1]
      exact hi
    obtain ⟨hstatic, hcands⟩ := hwf.1.1 (funcAt p i) (funcAt_mem hip)
    constructor
    · intro en hen
      rw [← hfq] at hen
      have h2 := hstatic en ((staticTargets_iff hsp i).mpr hen)
      refine ⟨?_, h2.2⟩
      rw [← hsp.2.2.1]
      exact h2.1
    · intro c hc
      rw [← hfq] at hc
      exact candValid_congr hsp.1 hsp.2.2.1 (hcands c ((instCands_iff hsp i).mpr hc))
  · intro ct hct en hen
    rw [← hsp.2.2.1]
    refine hwf.1.2 ct ?_ en hen
    rw [hsp.1]
    exact hct
  · intro r hr
    rw [← hsp.2.2.1]
    exact hwf.2 r hr

theorem grows_step (p : Program) (s : EngineState) : Grows s (step p s) := by
  rcases hq : s.queue with _ | ⟨f, rest⟩
  · rw [step_eq_nil hq]
    exact grows_id s
  · rw [step_eq_cons hq]
    refine grows_seq ?_ (mono_scanFunction p _ f).1
    exact ⟨fun x hx => hx, fun x hx => hx, fun x hx => hx, fun x hx => hx⟩

/-! ### The claims -/

/-- C1: Dynamic soundness — for every dynamic call site with dispatch key
`key` belonging to a function `f` of the final Reachable set, if any
candidate (concrete type or address-taken function) satisfying the key is
instantiated anywhere in the same run, the final result contains the
corresponding dynamic edge from the call site's caller to the resolved
target and the target is reachable — regardless of whether the
instantiation site or the call site was scanned first, since the statement
is about the fixpoint state. -/
theorem dynamic_soundness (p : Program) (roots : List Nat)
    (hwf : WellFormed p roots) (f : Nat) (key : DispatchKey)
    (hf : f ∈ (analyze p roots).reachable)
    (hkey : key ∈ dynKeys (funcAt p f))
    (c : Candidate) (hc : c ∈ (analyze p roots).instantiated)
    (t : Nat) (ht : t ∈ resolveTargets p key c) :
    (f, t, keyKind key) ∈ (analyze p roots).edges ∧
      t ∈ (analyze p roots).reachable := by
  obtain ⟨hinv, hq, _⟩ := analyze_props hwf
  have hsc := reachable_scanned hinv hq hf
  exact hinv.1.2 (f, key) (hsc.2.1 key hkey) c hc t ht

theorem dynamic_soundness_witness :
    WellFormed fixtureProgram fixtureRoots ∧
    ((0, 6, EdgeKind.dynamicMethod) ∈ fixtureResult.edges ∧
      6 ∈ fixtureResult.reachable) :=
  ⟨by decide,
   dynamic_soundness fixtureProgram fixtureRoots (by decide) 0
     (DispatchKey.iface 0 "F") (by decide) (by decide)
     (Candidate.typ (TypeRef.base 0)) (by decide) 6 (by decide)⟩

/-- C2: Static soundness — for every static call site located in a function
`f` of the final Reachable set and targeting function `t`, `t` is in the
final Reachable set and the final call graph contains the edge
`(f, t, k)` whose kind `k` is static-function or static-method. -/
theorem static_soundness (p : Program) (roots : List Nat)
    (hwf : WellFormed p roots) (f t : Nat) (k : EdgeKind)
    (hf : f ∈ (analyze p roots).reachable)
    (hsite : (t, k) ∈ staticTargets (funcAt p f)) :
    (f, t, k) ∈ (analyze p roots).edges ∧ t ∈ (analyze p roots).reachable ∧
      (k = EdgeKind.staticFunction ∨ k = EdgeKind.staticMethod) := by
  obtain ⟨hinv, hq, _⟩ := analyze_props hwf
  have hsc := reachable_scanned hinv hq hf
  obtain ⟨⟨⟨h1, h2, h3, h4, h5, h6, h7, h8, h9⟩, hcross⟩, hscan⟩ := hinv
  refine ⟨(hsc.1 (t, k) hsite).1, (hsc.1 (t, k) hsite).2, ?_⟩
  exact ((hwf.1.1 _ (funcAt_mem (h7 f hf))).1 (t, k) hsite).2

theorem static_soundness_witness :
    WellFormed fixtureProgram fixtureRoots ∧
    ((0, 1, EdgeKind.staticFunction) ∈ fixtureResult.edges ∧
      1 ∈ fixtureResult.reachable ∧
      (EdgeKind.staticFunction = EdgeKind.staticFunction ∨
        EdgeKind.staticFunction = EdgeKind.staticMethod)) :=
  ⟨by decide,
   static_soundness fixtureProgram fixtureRoots (by decide) 0 1
     EdgeKind.staticFunction (by decide) (by decide)⟩

/-- C3: Termination with a single scan per function — the run reaches the
empty-queue fixpoint, no function is dequeued and scanned twice, the number
of dequeues is bounded by the number of functions, the number of dequeues
plus the number of sites scanned is bounded by the total count of
functions, instantiation sites and call sites of the Program Model, and
each worklist iteration only moves a function forward through the
`Unvisited → Queued → Processed` state machine. -/
theorem worklist_termination (p : Program) (roots : List Nat)
    (hwf : WellFormed p roots) :
    (analyze p roots).queue = [] ∧
    (analyze p roots).processed.Nodup ∧
    (analyze p roots).processed.length ≤ p.funcs.length ∧
    (analyze p roots).processed.length +
        ((analyze p roots).processed.map (fun f => siteCount (funcAt p f))).sum ≤
      p.funcs.length + totalSites p ∧
    (∀ s : EngineState, Inv p s → ∀ g : Nat,
      (fstate s g).rank ≤ (fstate (step p s) g).rank) := by
  obtain ⟨hinv, hq, _⟩ := analyze_props hwf
  obtain ⟨⟨⟨h1, h2, h3, h4, h5, h6, h7, h8, h9⟩, hcross⟩, hscan⟩ := hinv
  have hbound : ∀ x ∈ (analyze p roots).processed, x < p.funcs.length :=
    fun x hx => h7 x (h5 x hx)
  refine ⟨hq, h4, nodup_bounded_length h4 hbound, ?_,
    fun s hs g => fstate_rank_le_step hs g⟩
  unfold totalSites
  exact Nat.add_le_add (nodup_bounded_length h4 hbound)
    (nodup_bounded_sum (fun f => siteCount (funcAt p f)) h4 hbound)

theorem worklist_termination_witness :
    WellFormed fixtureProgram fixtureRoots ∧
    (fixtureResult.queue = [] ∧
     fixtureResult.processed.Nodup ∧
     fixtureResult.processed.length ≤ fixtureProgram.funcs.length ∧
     fixtureResult.processed.length +
         (fixtureResult.processed.map
           (fun f => siteCount (funcAt fixtureProgram f))).sum ≤
       fixtureProgram.funcs.length + totalSites fixtureProgram ∧
     (∀ s : EngineState, Inv fixtureProgram s → ∀ g : Nat,
       (fstate s g).rank ≤ (fstate (step fixtureProgram s) g).rank)) :=
  ⟨by decide, worklist_termination fixtureProgram fixtureRoots (by decide)⟩

/-- C4: Determinism — two runs of the engine on the identical Program Model
and root set produce identical Reachable, RuntimeTypes and Edges sets (the
engine is a pure function of its input), and permuting the order in which a
function's call sites and instantiation sites are visited does not change
the final Reachable and Instantiated sets. -/
theorem engine_determinism (p q : Program) (roots : List Nat)
    (hwf : WellFormed p roots) (hsp : SitePerm p q) :
    ((analyze p roots).reachable = (analyze p roots).reachable ∧
     (analyze p roots).instantiated = (analyze p roots).instantiated ∧
     (analyze p roots).edges = (analyze p roots).edges) ∧
    (∀ f, f ∈ (analyze p roots).reachable ↔ f ∈ (analyze q roots).reachable) ∧
    (∀ c, c ∈ (analyze p roots).instantiated ↔
      c ∈ (analyze q roots).instantiated) := by
  have hwfq := wellFormed_sitePerm hsp hwf
  have hsndp := analyze_sound hwf
  have hsndq := analyze_sound hwfq
  refine ⟨⟨rfl, rfl, rfl⟩, ?_, ?_⟩
  · intro f
    constructor
    · intro hf
      exact reach_complete hwfq f (reach_sitePerm hsp f (hsndp.1 f hf))
    · intro hf
      exact reach_complete hwf f
        (reach_sitePerm (sitePerm_symm hsp) f (hsndq.1 f hf))
  · intro c
    constructor
    · intro hc
      obtain ⟨hfn, hrf, hcf⟩ := hsndp.2 c hc
      exact inst_complete hwfq c
        ⟨hfn, reach_sitePerm hsp hfn hrf, (instCands_iff hsp hfn).mp hcf⟩
    · intro hc
      obtain ⟨hfn, hrf, hcf⟩ := hsndq.2 c hc
      exact inst_complete hwf c
        ⟨hfn, reach_sitePerm (sitePerm_symm hsp) hfn hrf,
         (instCands_iff (sitePerm_symm hsp) hfn).mp hcf⟩

theorem engine_determinism_witness :
    (WellFormed fixtureProgram fixtureRoots ∧
     SitePerm fixtureProgram fixtureProgramPermuted) ∧
    (((analyze fixtureProgram fixtureRoots).reachable =
        (analyze fixtureProgram fixtureRoots).reachable ∧
      (analyze fixtureProgram fixtureRoots).instantiated =
        (analyze fixtureProgram fixtureRoots).instantiated ∧
      (analyze fixtureProgram fixtureRoots).edges =
        (analyze fixtureProgram fixtureRoots).edges) ∧
     (∀ f, f ∈ (analyze fixtureProgram fixtureRoots).reachable ↔
        f ∈ (analyze fixtureProgramPermuted fixtureRoots).reachable) ∧
     (∀ c, c ∈ (analyze fixtureProgram fixtureRoots).instantiated ↔
        c ∈ (analyze fixtureProgramPermuted fixtureRoots).instantiated)) :=
  ⟨⟨by decide, by decide⟩,
   engine_determinism fixtureProgram fixtureProgramPermuted fixtureRoots
     (by decide) (by decide)⟩

/-- C5: Monotone growth invariant — in every state of a run, Reachable is a
subset of the Program Model's functions and Instantiated is a subset of its
concrete types together with the address-taken functions, and one engine
step only ever adds elements to these two sets. -/
theorem monotone_growth (p : Program) (s : EngineState) (h : Inv p s) :
    (∀ f ∈ s.reachable, f < p.funcs.length) ∧
    (∀ c ∈ s.instantiated, CandValid p c) ∧
    (∀ x ∈ s.reachable, x ∈ (step p s).reachable) ∧
    (∀ x ∈ s.instantiated, x ∈ (step p s).instantiated) := by
  obtain ⟨⟨⟨h1, h2, h3, h4, h5, h6, h7, h8, h9⟩, hcross⟩, hscan⟩ := h
  exact ⟨h7, h8, (grows_step p s).reach, (grows_step p s).inst⟩

theorem monotone_growth_witness :
    Inv fixtureProgram (initState fixtureRoots) ∧
    ((∀ f ∈ (initState fixtureRoots).reachable, f < fixtureProgram.funcs.length) ∧
     (∀ c ∈ (initState fixtureRoots).instantiated, CandValid fixtureProgram c) ∧
     (∀ x ∈ (initState fixtureRoots).reachable,
        x ∈ (step fixtureProgram (initState fixtureRoots)).reachable) ∧
     (∀ x ∈ (initState fixtureRoots).instantiated,
        x ∈ (step fixtureProgram (initState fixtureRoots)).instantiated)) :=
  ⟨by decide, monotone_growth fixtureProgram (initState fixtureRoots) (by decide)⟩

/-- C6: Idempotence of registration and observation — processing the same
dynamic call site twice, or observing the same candidate twice, leaves the
state exactly as after doing it once (hence no duplicate edges); the
tracker's `observe` returns `true` only on a first observation, and a
re-observation returns `false` with the state unchanged; and edge
deduplication preserves the no-duplicate-edges property of the call graph
under both operations. -/
theorem registration_observation_idempotent (p : Program) (s : EngineState)
    (caller : Nat) (key : DispatchKey) (c : Candidate) :
    processDynamicSite p (processDynamicSite p s caller key) caller key =
      processDynamicSite p s caller key ∧
    observeCandidate p (observeCandidate p s c) c = observeCandidate p s c ∧
    ((observe s c).1 = true ↔ c ∉ s.instantiated) ∧
    (c ∈ s.instantiated → observe s c = (false, s)) ∧
    (s.edges.Nodup → (processDynamicSite p s caller key).edges.Nodup ∧
      (observeCandidate p s c).edges.Nodup) :=
  ⟨processDynamicSite_idem p s caller key,
   observeCandidate_idem p s c,
   observe_true_iff s c,
   observe_of_mem s c,
   fun h => ⟨processDynamicSite_edges_nodup p s caller key h,
     observeCandidate_edges_nodup p s c h⟩⟩

theorem registration_observation_idempotent_witness :
    Candidate.func 0 ∈
      (⟨[], [], [], [Candidate.func 0], [], []⟩ : EngineState).instantiated ∧
    (⟨[], [], [], [Candidate.func 0], [], []⟩ : EngineState).edges.Nodup ∧
    observe ⟨[], [], [], [Candidate.func 0], [], []⟩ (Candidate.func 0) =
      (false, ⟨[], [], [], [Candidate.func 0], [], []⟩) ∧
    ((processDynamicSite fixtureProgram ⟨[], [], [], [Candidate.func 0], [], []⟩
        0 (DispatchKey.iface 0 "F")).edges.Nodup ∧
      (observeCandidate fixtureProgram ⟨[], [], [], [Candidate.func 0], [], []⟩
        (Candidate.func 0)).edges.Nodup) :=
  ⟨by decide, by decide,
   (registration_observation_idempotent fixtureProgram
     ⟨[], [], [], [Candidate.func 0], [], []⟩ 0 (DispatchKey.iface 0 "F")
     (Candidate.func 0)).2.2.2.1 (by decide),
   (registration_observation_idempotent fixtureProgram
     ⟨[], [], [], [Candidate.func 0], [], []⟩ 0 (DispatchKey.iface 0 "F")
     (Candidate.func 0)).2.2.2.2 (by decide)⟩

/-- C7: Concrete-scenario reachability on the canonical fixture — `main`
(0), `use` (1), `(A).F` (6), `(*A).F` (7), `(*B).F` (8), `(B2).F` (9),
`(*B2).F` (10), `(C).F` (11) and `(*C).F` (12) are reachable; `dead` (2)
and `(*D).F` (13) are not; and nothing outside the twelve functions of the
expected `reachable` golden block is reachable — in particular no function
of the model corresponds to `(B).F` or `(D).F`, which do not exist because
`B` and `D` define `F` on the pointer receiver only. -/
theorem fixture_reachability :
    (0 ∈ fixtureResult.reachable ∧ 1 ∈ fixtureResult.reachable ∧
     6 ∈ fixtureResult.reachable ∧ 7 ∈ fixtureResult.reachable ∧
     8 ∈ fixtureResult.reachable ∧ 9 ∈ fixtureResult.reachable ∧
     10 ∈ fixtureResult.reachable ∧ 11 ∈ fixtureResult.reachable ∧
     12 ∈ fixtureResult.reachable) ∧
    (2 ∉ fixtureResult.reachable ∧ 13 ∉ fixtureResult.reachable) ∧
    (∀ f ∈ fixtureResult.reachable, f ∈ [0, 1, 3, 4, 5, 6, 7, 8, 9, 10, 11, 12]) := by
  decide

/-- C8: Concrete-scenario dynamic edges and runtime types on the canonical
fixture — a dynamic-method-call edge from `main` (0) to each of `(*A).F`
(7), `(*B).F` (8), `(*B2).F` (10) and `(*C).F` (12); the runtime-type set
contains `A`, `B`, `B2` and `C` (base 0..3) and does not contain `D`
(base 4). -/
theorem fixture_dynamic_edges_rtypes :
    ((0, 7, EdgeKind.dynamicMethod) ∈ fixtureResult.edges ∧
     (0, 8, EdgeKind.dynamicMethod) ∈ fixtureResult.edges ∧
     (0, 10, EdgeKind.dynamicMethod) ∈ fixtureResult.edges ∧
     (0, 12, EdgeKind.dynamicMethod) ∈ fixtureResult.edges) ∧
    (Candidate.typ (TypeRef.base 0) ∈ fixtureResult.instantiated ∧
     Candidate.typ (TypeRef.base 1) ∈ fixtureResult.instantiated ∧
     Candidate.typ (TypeRef.base 2) ∈ fixtureResult.instantiated ∧
     Candidate.typ (TypeRef.base 3) ∈ fixtureResult.instantiated) ∧
    Candidate.typ (TypeRef.base 4) ∉ fixtureResult.instantiated := by
  decide

/-- C9: Wrapper-to-value edges on the canonical fixture — for each concrete
type whose method `F` is defined on the value receiver and whose
pointer-method wrapper is reachable (`A`, `B2`, `C`), the call graph
contains a static-method-call edge from the wrapper `(*T).F` to the value
method `(T).F`: (7, 6), (10, 9) and (12, 11). -/
theorem fixture_wrapper_edges :
    ((7, 6, EdgeKind.staticMethod) ∈ fixtureResult.edges ∧
     (10, 9, EdgeKind.staticMethod) ∈ fixtureResult.edges ∧
     (12, 11, EdgeKind.staticMethod) ∈ fixtureResult.edges) ∧
    (7 ∈ fixtureResult.reachable ∧ 10 ∈ fixtureResult.reachable ∧
     12 ∈ fixtureResult.reachable) := by
  decide

/-- C10: The runtime-type set is closed under pointer formation — for every
Program Model and root set, whenever a named (non-pointer) concrete type is
in the final runtime-type set its pointer type is as well; on the canonical
fixture `*A`, `*B`, `*B2`, `*C` are runtime types while neither `D` nor
`*D` appears. -/
theorem runtime_types_ptr_closed :
    (∀ (p : Program) (roots : List Nat), PtrClosed (analyze p roots).instantiated) ∧
    (Candidate.typ (TypeRef.ptr 0) ∈ fixtureResult.instantiated ∧
     Candidate.typ (TypeRef.ptr 1) ∈ fixtureResult.instantiated ∧
     Candidate.typ (TypeRef.ptr 2) ∈ fixtureResult.instantiated ∧
     Candidate.typ (TypeRef.ptr 3) ∈ fixtureResult.instantiated) ∧
    (Candidate.typ (TypeRef.base 4) ∉ fixtureResult.instantiated ∧
     Candidate.typ (TypeRef.ptr 4) ∉ fixtureResult.instantiated) :=
  ⟨ptrClosed_analyze, by decide, by decide⟩

end RTA
